import Mathlib

/-!
Verification of the agent-workflow core of the `ts-monorepo-template`
repository (packages/ai): the conditional router `shouldContinue`, the
retry wrapper `AgentWorkflow.runWithRetries`, the result check in
`AgentWorkflow.run`, and the three workflow nodes (`createLLMNode`,
`createToolsNode`, `createParseNode`).

Modelling conventions:
* Messages are the tagged union the source manipulates through LangChain
  subclasses (`instanceof AIMessage` becomes a `role` test).
* Message content (`MessageContent`) is modelled as a JSON value `Json`;
  a JavaScript string content is `Json.str`.
* JSON numbers are modelled as arbitrary-precision integers; fractional
  and exponent syntax of IEEE-754 doubles is out of scope.
* JavaScript promise rejection / `throw` is modelled with `Except`;
  thrown errors are carried as their message strings.
* `setTimeout` delays are recorded in an explicit trace (`RetryTrace`)
  in chronological order.
-/

namespace AgentSpec

/-!
JSON values, mutually with lists of elements and of object members.
Object members keep insertion order, as JavaScript objects do.
-/

mutual

inductive Json where
  | null : Json
  | bool (b : Bool) : Json
  | num (n : Int) : Json
  | str (s : String) : Json
  | arr (xs : JsonList) : Json
  | obj (ms : JsonMembers) : Json

inductive JsonList where
  | nil : JsonList
  | cons (hd : Json) (tl : JsonList) : JsonList

inductive JsonMembers where
  | nil : JsonMembers
  | cons (k : String) (v : Json) (tl : JsonMembers) : JsonMembers

end

/-- Roles of the LangChain message classes used by the workflow. -/
inductive Role where
  | system : Role
  | human : Role
  | ai : Role
  | tool : Role
deriving DecidableEq

/-- A tool-call request carried by an AI message: name, argument bundle and
request identifier. `name`/`id` are `Option` because the source guards
against them being absent (`name || 'unknown-tool'`, `id!`). -/
structure ToolCall where
  name : Option String
  args : Json
  id : Option String

/-- A LangChain message as the workflow sees it: role tag, content, the
tool-call requests (`tool_calls`, possibly absent), and the `name` /
`tool_call_id` fields a `ToolMessage` carries. -/
structure Message where
  role : Role
  content : Json
  toolCalls : Option (List ToolCall)
  name : Option String
  toolCallId : Option String

/-- The workflow state (`StateType`): the triggering input, the ordered
message sequence, and the optional final result. -/
structure WFState where
  userInput : Message
  messages : List Message
  result : Option Json

/-- The last element of the message sequence (`state.messages[state.messages.length - 1]`,
`undefined` on an empty array becomes `none`). -/
def lastMsg (ms : List Message) : Option Message := ms.getLast?

/-- Whitespace for JavaScript string `trim()` and the regex class `\s`
(ASCII whitespace plus NBSP and BOM; the exotic Unicode space family is
not carried by any value the workflow builds). -/
def jsWS (c : Char) : Bool :=
  c = ' ' || c = Char.ofNat 9 || c = Char.ofNat 10 || c = Char.ofNat 11 ||
    c = Char.ofNat 12 || c = Char.ofNat 13 || c = Char.ofNat 160 || c = Char.ofNat 0xFEFF

/-- JavaScript `String.prototype.trim`. -/
def jsTrim (s : String) : String :=
  String.mk (((s.data.dropWhile jsWS).reverse.dropWhile jsWS).reverse)

/-- The two targets of the conditional edge after `LLM_WITH_TOOLS`. -/
inductive RouteTarget where
  | toolsTarget : RouteTarget
  | parseTarget : RouteTarget
deriving DecidableEq

/-- One `tool_calls` entry passes the router's validity test:
`typeof call.name === 'string' && call.name.trim() !== ''`. -/
def validToolCallName (c : ToolCall) : Bool :=
  match c.name with
  | some n => jsTrim n != ""
  | none => false

/-- The conditional router `shouldContinue` of `agent-workflow.ts`: route to
the tools node when the last message is an `AIMessage` whose `tool_calls`
is a non-empty array containing at least one call with a string name that
is non-empty after trimming; otherwise route to the parse node. -/
def shouldContinue (s : WFState) : RouteTarget :=
  match lastMsg s.messages with
  | none => .parseTarget
  | some m =>
    if m.role = .ai then
      match m.toolCalls with
      | some calls =>
        if calls.length > 0 && calls.any validToolCallName then .toolsTarget
        else .parseTarget
      | none => .parseTarget
    else .parseTarget

/-- What one execution of `runWithRetries` did: its outcome, how many times
it invoked the single run, and the backoff delays it slept, in
chronological order (the `k`-th recorded delay falls between the `k`-th
and `(k+1)`-th invocation). -/
structure RetryTrace (α : Type) where
  result : Except String α
  invocations : Nat
  delays : List Nat

/-- The retry loop of `AgentWorkflow.runWithRetries`, one iteration per
constructor step: `attempt` is the current 0-indexed attempt, `remaining`
the number of loop iterations left (`maxRetries + 1 - attempt`), and
`lastError` the error recorded by the previous failures. `attempts k` is
the outcome of the `k`-th invocation of `this.run`. -/
def retryGo {α : Type} (attempts : Nat → Except String α) (maxRetries baseDelay : Nat) :
    Nat → Nat → Option String → RetryTrace α
  | _, 0, lastError =>
    ⟨.error (lastError.getD "Unexpected error: All retry attempts failed without specific error."),
      0, []⟩
  | attempt, remaining + 1, _ =>
    match attempts attempt with
    | .ok v => ⟨.ok v, 1, []⟩
    | .error e =>
      if attempt < maxRetries then
        let t := retryGo attempts maxRetries baseDelay (attempt + 1) remaining (some e)
        ⟨t.result, t.invocations + 1, (baseDelay * 2 ^ attempt) :: t.delays⟩
      else
        let t := retryGo attempts maxRetries baseDelay (attempt + 1) remaining (some e)
        ⟨t.result, t.invocations + 1, t.delays⟩

/-- `AgentWorkflow.runWithRetries`: the loop
`for (attempt = 0; attempt < maxRetries + 1; attempt++)` starting with no
recorded error. -/
def runWithRetries {α : Type} (attempts : Nat → Except String α)
    (maxRetries baseDelay : Nat) : RetryTrace α :=
  retryGo attempts maxRetries baseDelay 0 (maxRetries + 1) none

/-- The invocation of `this.run` failed (the promise rejected). -/
def isFailure {α : Type} : Except String α → Bool
  | .ok _ => false
  | .error _ => true

/-- JavaScript truthiness of a JSON value (`NaN` is out of scope along with
floats). -/
def truthy : Json → Bool
  | .null => false
  | .bool b => b
  | .num n => n != 0
  | .str s => s != ""
  | .arr _ => true
  | .obj _ => true

/-- The error message of the `NoResult` condition in `AgentWorkflow.run`. -/
def noResultMsg : String := "Workflow completed but no result was produced"

/-- The completion check of `AgentWorkflow.run`: after the compiled graph
returned `finalState`, `if (!finalState || !finalState.result) throw ...;
return finalState.result`. JavaScript `!` on the result is truthiness, not
presence. -/
def runCheck (finalState : Option WFState) : Except String Json :=
  match finalState with
  | none => .error noResultMsg
  | some st =>
    match st.result with
    | none => .error noResultMsg
    | some r => if truthy r then .ok r else .error noResultMsg

/-! ### A model of `JSON.parse` and `JSON.stringify`

The workflow calls the JavaScript platform's JSON codec in three places:
`createLLMNode` (speculative re-parse of string content), `createParseNode`
(stringify non-string content, then strict parse), and the spec's
round-trip property. The codec pair is modelled below. Numbers are
arbitrary-precision integers (fraction/exponent syntax of IEEE-754 doubles
is out of scope), and `\uXXXX` escapes in the UTF-16 surrogate range are
not modelled (Lean chars are code points). -/

/-- The backtick character. -/
def btick : Char := Char.ofNat 96

/-- Opening curly brace. -/
def lbrace : Char := Char.ofNat 123

/-- Closing curly brace. -/
def rbrace : Char := Char.ofNat 125

/-- Whitespace of the JSON grammar (space, tab, LF, CR). -/
def jsonWS (c : Char) : Bool :=
  c = ' ' || c = Char.ofNat 9 || c = Char.ofNat 10 || c = Char.ofNat 13

/-- Drop leading JSON whitespace. -/
def skipWS : List Char → List Char
  | [] => []
  | c :: rest => if jsonWS c then skipWS rest else c :: rest

/-- Strip an expected literal: `some` of the remainder when `pat` heads the
input. -/
def stripChars : List Char → List Char → Option (List Char)
  | [], l => some l
  | _ :: _, [] => none
  | p :: ps, c :: rest => if c = p then stripChars ps rest else none

/-- ASCII decimal digit. -/
def isDigitChar (c : Char) : Bool := 48 ≤ c.toNat && c.toNat ≤ 57

/-- The character of a decimal digit value. -/
def digitChar (n : Nat) : Char := Char.ofNat (48 + n)

/-- Lowercase hex digit character of a value below 16. -/
def hexDigitChar (n : Nat) : Char := Char.ofNat (if n < 10 then 48 + n else 87 + n)

/-- Value of a hex digit character. -/
def hexVal (c : Char) : Option Nat :=
  if 48 ≤ c.toNat && c.toNat ≤ 57 then some (c.toNat - 48)
  else if 97 ≤ c.toNat && c.toNat ≤ 102 then some (c.toNat - 87)
  else if 65 ≤ c.toNat && c.toNat ≤ 70 then some (c.toNat - 55)
  else none

/-- Parse the body of a JSON string after its opening quote, accumulating
decoded characters in reverse. Returns the string and the input after the
closing quote. -/
def parseStringBody : List Char → List Char → Option (String × List Char)
  | [], _ => none
  | ['\\'], _ => none
  | '\\' :: 'u' :: h1 :: h2 :: h3 :: h4 :: rest, acc =>
    match hexVal h1, hexVal h2, hexVal h3, hexVal h4 with
    | some a, some b, some c2, some d =>
      let code := ((a * 16 + b) * 16 + c2) * 16 + d
      if 55296 ≤ code && code < 57344 then none
      else parseStringBody rest (Char.ofNat code :: acc)
    | _, _, _, _ => none
  | '\\' :: e :: rest, acc =>
    if e = '"' then parseStringBody rest ('"' :: acc)
    else if e = '\\' then parseStringBody rest ('\\' :: acc)
    else if e = '/' then parseStringBody rest ('/' :: acc)
    else if e = 'b' then parseStringBody rest (Char.ofNat 8 :: acc)
    else if e = 'f' then parseStringBody rest (Char.ofNat 12 :: acc)
    else if e = 'n' then parseStringBody rest (Char.ofNat 10 :: acc)
    else if e = 'r' then parseStringBody rest (Char.ofNat 13 :: acc)
    else if e = 't' then parseStringBody rest (Char.ofNat 9 :: acc)
    else none
  | c :: rest, acc =>
    if c = '"' then some (String.mk acc.reverse, rest)
    else if c.toNat < 32 then none
    else parseStringBody rest (c :: acc)

/-- Decimal digits of `n`, most significant first (helper with fuel; any
fuel above the digit count gives the digits). -/
def natToCharsAux : Nat → Nat → List Char
  | 0, _ => []
  | fuel + 1, n =>
    if n < 10 then [digitChar n]
    else natToCharsAux fuel (n / 10) ++ [digitChar (n % 10)]

/-- Decimal rendering of a natural number. -/
def natToChars (n : Nat) : List Char := natToCharsAux (n + 1) n

/-- Decimal rendering of an integer, as `JSON.stringify` emits it. -/
def intToChars (n : Int) : List Char :=
  if n < 0 then '-' :: natToChars n.natAbs else natToChars n.natAbs

/-- Split the longest digit run off the front. -/
def takeDigits : List Char → List Char × List Char
  | [] => ([], [])
  | c :: rest =>
    if isDigitChar c then
      let p := takeDigits rest
      (c :: p.1, p.2)
    else ([], c :: rest)

/-- Numeric value of a digit run. -/
def digitsToNat (l : List Char) : Nat := l.foldl (fun a c => a * 10 + (c.toNat - 48)) 0

/-- Parse a JSON natural-number token: `0`, or a nonzero digit followed by
digits (a leading zero must not be followed by another digit). -/
def parseNatNum : List Char → Option (Nat × List Char)
  | [] => none
  | c :: rest =>
    if c = '0' then
      match rest with
      | [] => some (0, [])
      | d :: _ => if isDigitChar d then none else some (0, rest)
    else if isDigitChar c then
      let p := takeDigits rest
      some (digitsToNat (c :: p.1), p.2)
    else none

/-- Parse a JSON number token (integer part only; see the module note). -/
def parseNumberFrom (l : List Char) : Option (Json × List Char) :=
  match l with
  | [] => none
  | c :: rest =>
    if c = '-' then
      match parseNatNum rest with
      | some (n, r) => some (.num (-(n : Int)), r)
      | none => none
    else
      match parseNatNum (c :: rest) with
      | some (n, r) => some (.num (n : Int), r)
      | none => none

mutual

/-- Parse one JSON value after optional whitespace; `fuel` bounds the
recursion depth. -/
def parseValue : Nat → List Char → Option (Json × List Char)
  | 0, _ => none
  | fuel + 1, input =>
    match skipWS input with
    | [] => none
    | c :: rest =>
      if c = '-' || isDigitChar c then parseNumberFrom (c :: rest)
      else if c = '"' then
        match parseStringBody rest [] with
        | some (s, r) => some (.str s, r)
        | none => none
      else if c = 'n' then
        match stripChars ['u', 'l', 'l'] rest with
        | some r => some (.null, r)
        | none => none
      else if c = 't' then
        match stripChars ['r', 'u', 'e'] rest with
        | some r => some (.bool true, r)
        | none => none
      else if c = 'f' then
        match stripChars ['a', 'l', 's', 'e'] rest with
        | some r => some (.bool false, r)
        | none => none
      else if c = '[' then
        match skipWS rest with
        | [] => none
        | d :: r2 =>
          if d = ']' then some (.arr .nil, r2)
          else
            match parseElems fuel (d :: r2) with
            | some (vs, r3) => some (.arr vs, r3)
            | none => none
      else if c = lbrace then
        match skipWS rest with
        | [] => none
        | d :: r2 =>
          if d = rbrace then some (.obj .nil, r2)
          else
            match parseMembers fuel (d :: r2) with
            | some (ms, r3) => some (.obj ms, r3)
            | none => none
      else none

/-- Parse a non-empty comma-separated element list up to and including the
closing bracket. -/
def parseElems : Nat → List Char → Option (JsonList × List Char)
  | 0, _ => none
  | fuel + 1, l =>
    match parseValue fuel l with
    | none => none
    | some (v, r) =>
      match skipWS r with
      | [] => none
      | c :: r2 =>
        if c = ',' then
          match parseElems fuel r2 with
          | none => none
          | some (vs, r3) => some (.cons v vs, r3)
        else if c = ']' then some (.cons v .nil, r2)
        else none

/-- Parse a non-empty member list up to and including the closing brace. -/
def parseMembers : Nat → List Char → Option (JsonMembers × List Char)
  | 0, _ => none
  | fuel + 1, l =>
    match skipWS l with
    | [] => none
    | c :: rest =>
      if c = '"' then
        match parseStringBody rest [] with
        | none => none
        | some (k, r) =>
          match skipWS r with
          | [] => none
          | d :: r2 =>
            if d = ':' then
              match parseValue fuel r2 with
              | none => none
              | some (v, r3) =>
                match skipWS r3 with
                | [] => none
                | e2 :: r4 =>
                  if e2 = ',' then
                    match parseMembers fuel r4 with
                    | none => none
                    | some (ms, r5) => some (.cons k v ms, r5)
                  else if e2 = rbrace then some (.cons k v .nil, r4)
                  else none
            else none
      else none

end

/-- Strict JSON decoding, the model of `JSON.parse`: one value, possibly
surrounded by whitespace, and nothing after it. -/
def jsonParse (s : String) : Option Json :=
  match parseValue (s.data.length + 1) s.data with
  | some (v, rest) => if skipWS rest = [] then some v else none
  | none => none

/-- Encoding of one character inside a JSON string literal, as
`JSON.stringify` escapes it. -/
def encodeChar (c : Char) : List Char :=
  if c = '"' then ['\\', '"']
  else if c = '\\' then ['\\', '\\']
  else if c = Char.ofNat 8 then ['\\', 'b']
  else if c = Char.ofNat 9 then ['\\', 't']
  else if c = Char.ofNat 10 then ['\\', 'n']
  else if c = Char.ofNat 12 then ['\\', 'f']
  else if c = Char.ofNat 13 then ['\\', 'r']
  else if c.toNat < 32 then
    ['\\', 'u', '0', '0', hexDigitChar (c.toNat / 16), hexDigitChar (c.toNat % 16)]
  else [c]

/-- Encoding of a character sequence inside a JSON string literal. -/
def encodeChars : List Char → List Char
  | [] => []
  | c :: rest => encodeChar c ++ encodeChars rest

/-- The literal emitted for the null value. -/
def nullChars : List Char := ['n', 'u', 'l', 'l']

/-- The literal emitted for true. -/
def trueChars : List Char := ['t', 'r', 'u', 'e']

/-- The literal emitted for false. -/
def falseChars : List Char := ['f', 'a', 'l', 's', 'e']

mutual

/-- The characters `JSON.stringify` (no indent) emits for a value. -/
def strfyChars : Json → List Char
  | .null => nullChars
  | .bool true => trueChars
  | .bool false => falseChars
  | .num n => intToChars n
  | .str s => '"' :: (encodeChars s.data ++ ['"'])
  | .arr .nil => ['[', ']']
  | .arr (.cons v vs) => '[' :: (strfyChars v ++ strfyElemsTail vs ++ [']'])
  | .obj .nil => [lbrace, rbrace]
  | .obj (.cons k v ms) => lbrace :: (strfyMemberChars k v ++ strfyMembersTail ms ++ [rbrace])

/-- Stringify the tail of an element list (a leading comma per element). -/
def strfyElemsTail : JsonList → List Char
  | .nil => []
  | .cons v vs => ',' :: (strfyChars v ++ strfyElemsTail vs)

/-- Stringify one object member. -/
def strfyMemberChars (k : String) (v : Json) : List Char :=
  '"' :: (encodeChars k.data ++ '"' :: ':' :: strfyChars v)

/-- Stringify the tail of a member list (a leading comma per member). -/
def strfyMembersTail : JsonMembers → List Char
  | .nil => []
  | .cons k v ms => ',' :: (strfyMemberChars k v ++ strfyMembersTail ms)

end

/-- The model of `JSON.stringify` (no indent). -/
def strfy (v : Json) : String := String.mk (strfyChars v)

/-! ### The tool-execution node (`createToolsNode`) -/

/-- A single apostrophe, used inside the error texts of the tools node. -/
def sq : String := String.mk [Char.ofNat 39]

/-- The not-found error content of the tools node. -/
def toolNotFoundMsg (n : String) : String :=
  "Error: Tool " ++ sq ++ n ++ sq ++ " not found"

/-- A registered tool: its unique name and its fallible invocation
(`tool.invoke(args)`, rejection carried as the error message string). -/
structure ToolDef where
  name : String
  run : Json → Except String Json

/-- Lookup in the `Map` the node builds from the tool array; on duplicate
names the later entry wins, as `new Map` overwrites. -/
def lookupTool (tools : List ToolDef) (n : String) : Option ToolDef :=
  tools.foldl (fun acc t => if t.name = n then some t else acc) none

/-- The name under which a request is looked up and tagged:
`toolCall.name || 'unknown-tool'` (missing or empty name falls back). -/
def effectiveToolName (tc : ToolCall) : String :=
  match tc.name with
  | none => "unknown-tool"
  | some s => if s = "" then "unknown-tool" else s

/-- Construction of a `ToolMessage` with content, name tag and
`tool_call_id`. -/
def mkToolMessage (content : Json) (name : String) (id : Option String) : Message :=
  ⟨.tool, content, none, some name, id⟩

/-- Execution of one tool-call request: the appended `ToolMessage` — the
not-found error when the effective name is unregistered, the invocation
result on success, and the error text on a raised invocation. -/
def execToolCall (tools : List ToolDef) (tc : ToolCall) : Message :=
  let toolName := effectiveToolName tc
  match lookupTool tools toolName with
  | none => mkToolMessage (.str (toolNotFoundMsg toolName)) toolName tc.id
  | some t =>
    match t.run tc.args with
    | .ok r => mkToolMessage r toolName tc.id
    | .error e => mkToolMessage (.str ("Error: " ++ e)) toolName tc.id

/-- The tools node of `tools-node.ts`: skip (returning the state value
itself) when no tools are configured, when the last message is not an
`AIMessage`, or when it carries no tool calls; otherwise append one
`ToolMessage` per request, in request order. This function is total: the
step never raises. -/
def createToolsNode (tools : List ToolDef) (s : WFState) : WFState :=
  if tools.isEmpty then s
  else
    match lastMsg s.messages with
    | some m =>
      if m.role = .ai then
        match m.toolCalls with
        | some calls =>
          if calls.isEmpty then s
          else { s with messages := s.messages ++ calls.map (execToolCall tools) }
        | none => s
      else s
    | none => s

/-! ### The model-invocation node (`createLLMNode`) -/

/-- What the underlying model client can resolve with: a bare string, an
already-canonical `AIMessage` (content plus optional tool calls), or a
chunk-like object whose `content` field may be absent. -/
inductive LLMResponse where
  | rawString (s : String) : LLMResponse
  | aiMessage (content : Json) (toolCalls : Option (List ToolCall)) : LLMResponse
  | chunk (content : Option Json) : LLMResponse

/-- The LLM node of `llm-node.ts`, applied to the response the model
resolved with: normalize the response into an `AIMessage` (a canonical
`AIMessage` passes through unchanged; a string content that parses as JSON
is replaced by the parsed form; an absent content becomes the empty
string) and append it to `messages`. -/
def createLLMNode (resp : LLMResponse) (s : WFState) : WFState :=
  let messageContent : Json :=
    match resp with
    | .rawString str => .str str
    | .aiMessage c _ => c
    | .chunk (some (.str str)) =>
      match jsonParse str with
      | some parsed => parsed
      | none => .str str
    | .chunk (some c) => c
    | .chunk none => .str ""
  let aiMessage : Message :=
    match resp with
    | .aiMessage c tc => ⟨.ai, c, tc, none, none⟩
    | _ => ⟨.ai, messageContent, none, none, none⟩
  { s with messages := s.messages ++ [aiMessage] }

/-! ### The output-parsing node (`createParseNode`)

The node extracts the first fenced code block with the JavaScript regex
/```(?:json)?\s*([\s\S]*?)\s*```/. The functions below are that regex's
matching algorithm: scan left to right for a position where the whole
pattern matches; at a match, `(?:json)?` prefers consuming "json", the
leading \s* is greedy, the group is lazy (shortest interior such that the
rest of the pattern still matches), and the trailing \s* backtracks before
the closing ticks. -/

/-- Does `\s*` followed by three backticks match a prefix here (the tail of
the pattern after the lazy group)? -/
def tickTailMatch : List Char → Bool
  | [] => false
  | c :: rest =>
    if c = btick then
      match rest with
      | b :: c2 :: _ => b = btick && c2 = btick
      | _ => false
    else jsWS c && tickTailMatch rest

/-- The lazy group: the shortest prefix whose end position satisfies
`tickTailMatch`; `none` when no end position does (no closing fence). -/
def findGroup : List Char → Option (List Char)
  | [] => none
  | c :: rest =>
    if tickTailMatch (c :: rest) then some []
    else
      match findGroup rest with
      | some g => some (c :: g)
      | none => none

/-- Greedy `\s*` then the lazy group (backtracking into the leading
whitespace never yields a different first match, see the regex note). -/
def matchBody (l : List Char) : Option (List Char) :=
  findGroup (l.dropWhile jsWS)

/-- The characters of the optional "json" tag. -/
def jsonTag : List Char := ['j', 's', 'o', 'n']

/-- After the opening ticks: `(?:json)?` prefers consuming the tag and
falls back to not consuming it. -/
def matchAfterTicks (l : List Char) : Option (List Char) :=
  match stripChars jsonTag l with
  | some rest =>
    match matchBody rest with
    | some g => some g
    | none => matchBody l
  | none => matchBody l

/-- Attempt a full pattern match at this position. -/
def tryTicksAt (l : List Char) : Option (List Char) :=
  match stripChars [btick, btick, btick] l with
  | some rest => matchAfterTicks rest
  | none => none

/-- The first (leftmost) match of the code-block regex: the captured group
of `regex.exec(text)`. -/
def execCodeBlock : List Char → Option (List Char)
  | [] => none
  | c :: rest =>
    match tryTicksAt (c :: rest) with
    | some g => some g
    | none => execCodeBlock rest

/-- The distinct failure conditions of `createParseNode` (the source throws
errors with these three distinct messages). -/
inductive ParseErr where
  | typeMismatch : ParseErr
  | malformedOutput : ParseErr
  | schemaViolation : ParseErr
deriving DecidableEq

/-- The message content as text:
`typeof content === 'string' ? content : JSON.stringify(content)`. -/
def extractContent (content : Json) : String :=
  match content with
  | .str s => s
  | j => strfy j

/-- The text handed to `JSON.parse`: the trimmed interior of the first
fenced code block when one matched with a non-empty (truthy) group,
otherwise the full text. -/
def processedOutput (mc : String) : String :=
  match execCodeBlock mc.data with
  | some g => if g.isEmpty then mc else jsTrim (String.mk g)
  | none => mc

/-- The parse node of `parse-node.ts`: the last message must be an
`AIMessage` (else `typeMismatch`); its content text, after code-block
extraction, must decode as JSON (else `malformedOutput`); the decoded
value must validate against the schema (else `schemaViolation`); on
success `result` is set to the validated value. `sch` is the Zod schema's
`parse`: `none` on validation failure, `some` of the (possibly
transformed) typed value. -/
def createParseNode (sch : Json → Option Json) (s : WFState) : Except ParseErr WFState :=
  match lastMsg s.messages with
  | some m =>
    if m.role = .ai then
      match jsonParse (processedOutput (extractContent m.content)) with
      | some jd =>
        match sch jd with
        | some parsed => .ok { s with result := some parsed }
        | none => .error .schemaViolation
      | none => .error .malformedOutput
    else .error .typeMismatch
  | none => .error .typeMismatch

/-! ### Predicates and measures used by the round-trip statements -/

/-- The input does not start with a decimal digit (the boundary condition
under which a rendered number token parses back exactly). -/
def noDigitHead : List Char → Bool
  | [] => true
  | c :: _ => !isDigitChar c

/-- No three consecutive backticks occur in the list. -/
def noTripleTick : List Char → Bool
  | a :: b :: c :: rest => !(a = btick && b = btick && c = btick) && noTripleTick (b :: c :: rest)
  | _ => true

/-- The list is non-empty and its last character is not `\s`-class
whitespace. -/
def lastNonWS (l : List Char) : Bool :=
  match l.getLast? with
  | some c => !jsWS c
  | none => false

mutual

/-- Parser fuel sufficient for the stringification of a value. -/
def needFuel : Json → Nat
  | .null => 1
  | .bool _ => 1
  | .num _ => 1
  | .str _ => 1
  | .arr .nil => 1
  | .arr (.cons v vs) => 1 + needElemsFuel v vs
  | .obj .nil => 1
  | .obj (.cons k v ms) => 1 + needMembersFuel k v ms
termination_by v => sizeOf v

/-- Parser fuel sufficient for a non-empty stringified element list. -/
def needElemsFuel : Json → JsonList → Nat
  | v, .nil => 1 + needFuel v
  | v, .cons w ws => 1 + max (needFuel v) (needElemsFuel w ws)
termination_by v vs => sizeOf v + sizeOf vs

/-- Parser fuel sufficient for a non-empty stringified member list. -/
def needMembersFuel : String → Json → JsonMembers → Nat
  | _, v, .nil => 1 + needFuel v
  | _, v, .cons k2 w ms => 1 + max (needFuel v) (needMembersFuel k2 w ms)
termination_by _ v ms => sizeOf v + sizeOf ms

end

/-! ### Small helper lemmas about the retry loop -/

theorem retryGo_invocations_le {α : Type} (attempts : Nat → Except String α)
    (N D : Nat) : ∀ r att le, (retryGo attempts N D att r le).invocations ≤ r := by
  intro r
  induction r with
  | zero => intro att le; simp [retryGo]
  | succ r ih =>
    intro att le
    unfold retryGo
    cases h : attempts att with
    | ok v => simp
    | error e =>
      by_cases hb : att < N <;> simp [hb] <;> exact ih _ _

theorem retryGo_invocations_pos {α : Type} (attempts : Nat → Except String α)
    (N D : Nat) : ∀ r att le, 1 ≤ r → 1 ≤ (retryGo attempts N D att r le).invocations := by
  intro r att le hr
  match r, hr with
  | r + 1, _ =>
    unfold retryGo
    cases h : attempts att with
    | ok v => simp
    | error e => by_cases hb : att < N <;> simp [hb]

theorem retryGo_first_ok {α : Type} (attempts : Nat → Except String α) (N D : Nat) :
    ∀ k att r le v, k < r → (∀ j, j < k → isFailure (attempts (att + j)) = true) →
      attempts (att + k) = .ok v →
      (retryGo attempts N D att r le).result = .ok v ∧
      (retryGo attempts N D att r le).invocations = k + 1 := by
  intro k
  induction k with
  | zero =>
    intro att r le v hr _ hok
    match r, hr with
    | r + 1, _ =>
      rw [Nat.add_zero] at hok
      unfold retryGo
      rw [hok]
      exact ⟨rfl, rfl⟩
  | succ k ih =>
    intro att r le v hr hfail hok
    match r, hr with
    | r + 1, hr =>
      have h0 : isFailure (attempts att) = true := by
        have := hfail 0 (Nat.succ_pos k)
        simpa using this
      cases he : attempts att with
      | ok w => rw [he] at h0; simp [isFailure] at h0
      | error e =>
        have hrec := ih (att + 1) r (some e) v (by omega)
          (fun j hj => by
            have := hfail (j + 1) (by omega)
            simpa [Nat.add_assoc, Nat.add_comm 1 j] using this)
          (by simpa [Nat.add_assoc, Nat.add_comm 1 k] using hok)
        unfold retryGo
        rw [he]
        by_cases hb : att < N <;> simp only [hb, if_true, if_false, reduceIte] <;>
          exact ⟨hrec.1, by rw [hrec.2]⟩

theorem retryGo_all_fail {α : Type} (attempts : Nat → Except String α) (N D : Nat) :
    ∀ r att le, 1 ≤ r → (∀ j, j < r → isFailure (attempts (att + j)) = true) →
      (∃ e, attempts (att + r - 1) = .error e ∧
        (retryGo attempts N D att r le).result = .error e) ∧
      (retryGo attempts N D att r le).invocations = r := by
  intro r
  induction r with
  | zero => intro att le hr; omega
  | succ r ih =>
    intro att le _ hfail
    have h0 : isFailure (attempts att) = true := by
      have := hfail 0 (Nat.succ_pos r)
      simpa using this
    cases he : attempts att with
    | ok w => rw [he] at h0; simp [isFailure] at h0
    | error e =>
      rcases Nat.eq_zero_or_pos r with hr0 | hrpos
      · subst hr0
        unfold retryGo
        rw [he]
        by_cases hb : att < N <;>
          simp [hb, retryGo, Option.getD, he]
      · have hrec := ih (att + 1) (some e) hrpos
          (fun j hj => by
            have := hfail (j + 1) (by omega)
            simpa [Nat.add_assoc, Nat.add_comm 1 j] using this)
        have hidx : att + 1 + r - 1 = att + (r + 1) - 1 := by omega
        rw [hidx] at hrec
        unfold retryGo
        rw [he]
        by_cases hb : att < N <;> simp only [hb, if_true, if_false, reduceIte] <;>
          exact ⟨hrec.1, by rw [hrec.2]⟩

theorem retryGo_delays {α : Type} (attempts : Nat → Except String α) (N D : Nat) :
    ∀ r att le, att + r = N + 1 →
      (retryGo attempts N D att r le).delays =
        (List.range ((retryGo attempts N D att r le).invocations - 1)).map
          (fun k => D * 2 ^ (att + k)) := by
  intro r
  induction r with
  | zero => intro att le _; simp [retryGo]
  | succ r ih =>
    intro att le hsum
    unfold retryGo
    cases he : attempts att with
    | ok v => simp
    | error e =>
      by_cases hb : att < N
      · have hr1 : 1 ≤ r := by omega
        have hpos := retryGo_invocations_pos attempts N D r (att + 1) (some e) hr1
        have hrec := ih (att + 1) (some e) (by omega)
        simp only [hb, if_true, reduceIte]
        rw [hrec]
        have hinv : (retryGo attempts N D (att + 1) r (some e)).invocations + 1 - 1 =
            ((retryGo attempts N D (att + 1) r (some e)).invocations - 1) + 1 := by omega
        rw [hinv, List.range_succ_eq_map, List.map_cons, List.map_map]
        refine congrArg₂ List.cons (by simp) ?_
        apply List.map_congr_left
        intro a _
        simp only [Function.comp_apply]
        have hx : att + 1 + a = att + (a + 1) := by omega
        rw [hx]
      · have hr0 : r = 0 := by omega
        subst hr0
        simp [hb, retryGo]

/-! ### Claim C1 — the conditional router -/

/-- Sample human message used as `userInput` in concrete states. -/
def humanIn : Message := ⟨.human, .str "input", none, none, none⟩

/-- A tool call whose name is the single blank " ": non-empty, but blank
after trimming. -/
def blankCall : ToolCall := ⟨some " ", .null, some "call-1"⟩

/-- An AI message carrying `blankCall` as its only tool-call request. -/
def blankCallMsg : Message := ⟨.ai, .str "", some [blankCall], none, none⟩

/-- State whose last message is `blankCallMsg`. -/
def blankCallState : WFState := ⟨humanIn, [blankCallMsg], none⟩

/-- C1 counterexample: the last message is an `ai` message carrying a
tool-call request whose name " " is non-empty, yet the router sends the
state to PARSE, because the source tests `call.name.trim() !== ''` — a
blank (all-whitespace) name does not count. -/
theorem shouldContinue_blank_name_routes_parse :
    shouldContinue blankCallState = .parseTarget ∧
    lastMsg blankCallState.messages = some blankCallMsg ∧
    blankCallMsg.role = .ai ∧
    blankCallMsg.toolCalls = some [blankCall] ∧
    blankCall.name = some " " ∧ (" " : String) ≠ "" := by
  refine ⟨rfl, rfl, rfl, rfl, rfl, by decide⟩

theorem validToolCallName_iff (c : ToolCall) :
    validToolCallName c = true ↔ ∃ n, c.name = some n ∧ jsTrim n ≠ "" := by
  cases hn : c.name with
  | none => simp [validToolCallName, hn]
  | some n => simp [validToolCallName, hn, bne_iff_ne]

/-- C1 (amended): the router sends the state to TOOLS exactly when the last
message of `messages` is an `ai` message whose `tool_calls` array contains
at least one request with a string name that is non-blank (non-empty after
trimming whitespace), and to PARSE otherwise (including when `messages` is
empty or the last message is not an `ai` message). -/
theorem shouldContinue_spec (s : WFState) :
    (shouldContinue s = .toolsTarget ↔
      ∃ m calls, lastMsg s.messages = some m ∧ m.role = .ai ∧
        m.toolCalls = some calls ∧
        ∃ c ∈ calls, ∃ n, c.name = some n ∧ jsTrim n ≠ "") ∧
    (shouldContinue s = .parseTarget ↔
      ¬ ∃ m calls, lastMsg s.messages = some m ∧ m.role = .ai ∧
        m.toolCalls = some calls ∧
        ∃ c ∈ calls, ∃ n, c.name = some n ∧ jsTrim n ≠ "") := by
  have main : shouldContinue s = .toolsTarget ↔
      ∃ m calls, lastMsg s.messages = some m ∧ m.role = .ai ∧
        m.toolCalls = some calls ∧
        ∃ c ∈ calls, ∃ n, c.name = some n ∧ jsTrim n ≠ "" := by
    unfold shouldContinue
    cases hl : lastMsg s.messages with
    | none => simp
    | some m =>
      by_cases hr : m.role = .ai
      · simp only [hr, if_true, reduceIte]
        cases hc : m.toolCalls with
        | none => simp [hc]
        | some calls =>
          by_cases hv : calls.length > 0 && calls.any validToolCallName
          · simp only [hv, if_true, reduceIte]
            constructor
            · intro _
              rw [Bool.and_eq_true, List.any_eq_true] at hv
              obtain ⟨c, hmem, hvc⟩ := hv.2
              exact ⟨m, calls, rfl, hr, hc, c, hmem,
                (validToolCallName_iff c).mp hvc⟩
            · intro _; trivial
          · simp only [hv, if_false, reduceIte]
            constructor
            · intro h; simp at h
            · rintro ⟨m', calls', hm', hr', hc', c, hmem, n, hn, htrim⟩
              cases hm'
              rw [hc] at hc'
              cases hc'
              apply absurd _ (fun h => hv h)
              rw [Bool.and_eq_true, List.any_eq_true]
              refine ⟨by simpa using List.length_pos.mpr (List.ne_nil_of_mem hmem), c, hmem, ?_⟩
              exact (validToolCallName_iff c).mpr ⟨n, hn, htrim⟩
      · simp only [hr, if_false, reduceIte]
        constructor
        · intro h; simp at h
        · rintro ⟨m', calls', hm', hr', _⟩
          cases hm'
          exact absurd hr' hr
  refine ⟨main, ?_⟩
  constructor
  · intro hp hex
    rw [main.mpr hex] at hp
    cases hp
  · intro hnot
    cases hsc : shouldContinue s with
    | toolsTarget => exact absurd (main.mp hsc) hnot
    | parseTarget => rfl

/-! ### Claims C2 and C3 — the retry wrapper -/

/-- C2: the retry wrapper makes at most `N + 1` invocations of the single
run; if the first `k` attempts fail and attempt `k` (0-indexed, `k ≤ N`)
succeeds with `v`, it returns `v` after exactly `k + 1` invocations; if all
`N + 1` attempts fail it fails with the error of the final attempt (its
result is the final attempt's outcome) after exactly `N + 1` invocations;
and for `N = 0` exactly one attempt is made and its outcome passes through
directly. -/
theorem runWithRetries_spec {α : Type} (attempts : Nat → Except String α) (N D : Nat) :
    ((runWithRetries attempts N D).invocations ≤ N + 1) ∧
    (∀ k v, k ≤ N → (∀ j, j < k → isFailure (attempts j) = true) →
      attempts k = .ok v →
      (runWithRetries attempts N D).result = .ok v ∧
      (runWithRetries attempts N D).invocations = k + 1) ∧
    ((∀ j, j ≤ N → isFailure (attempts j) = true) →
      (runWithRetries attempts N D).result = attempts N ∧
      (runWithRetries attempts N D).invocations = N + 1) ∧
    (N = 0 →
      (runWithRetries attempts 0 D).result = attempts 0 ∧
      (runWithRetries attempts 0 D).invocations = 1) := by
  have hone : (∀ j, j ≤ N → isFailure (attempts j) = true) →
      (retryGo attempts N D 0 (N + 1) none).result = attempts N ∧
      (retryGo attempts N D 0 (N + 1) none).invocations = N + 1 := by
    intro hall
    have h := retryGo_all_fail attempts N D (N + 1) 0 none (by omega)
      (fun j hj => by simpa using hall j (by omega))
    obtain ⟨⟨e, he, hres⟩, hinv⟩ := h
    have hidx : 0 + (N + 1) - 1 = N := by omega
    rw [hidx] at he
    exact ⟨by rw [hres, he], hinv⟩
  refine ⟨retryGo_invocations_le attempts N D (N + 1) 0 none, ?_, hone, ?_⟩
  · intro k v hk hfail hok
    exact retryGo_first_ok attempts N D k 0 (N + 1) none v (by omega)
      (fun j hj => by simpa using hfail j hj) (by simpa using hok)
  · intro hN
    subst hN
    cases hres : attempts 0 with
    | ok v =>
      have h := retryGo_first_ok attempts 0 D 0 0 1 none v (by omega)
        (fun j hj => by omega) (by simpa using hres)
      exact ⟨h.1, h.2⟩
    | error e =>
      have h2 := hone (fun j hj => by
        have hj0 : j = 0 := by omega
        subst hj0
        rw [hres]; rfl)
      exact ⟨h2.1.trans hres, h2.2⟩

/-- Witness for C2 at a concrete schedule: two failures then success, with
`N = 3`. -/
def witAttempts : Nat → Except String Nat :=
  fun j => if j < 2 then .error "boom" else .ok 42

theorem runWithRetries_spec_witness :
    (runWithRetries witAttempts 3 10).result = .ok 42 ∧
    (runWithRetries witAttempts 3 10).invocations = 3 := by
  have h := (runWithRetries_spec witAttempts 3 10).2.1 2 42 (by omega)
    (fun j hj => by
      match j, hj with
      | 0, _ => rfl
      | 1, _ => rfl)
    (by rfl)
  exact h

/-- C3: the delays the retry wrapper sleeps are exactly
`D * 2^0, D * 2^1, …`, one fewer than the number of invocations — the
`k`-th recorded delay (the one between attempt `k` and attempt `k + 1`) is
`D * 2^k`, deterministically, with no jitter and no cap, and no delay
follows the final attempt. -/
theorem runWithRetries_delays {α : Type} (attempts : Nat → Except String α) (N D : Nat) :
    (runWithRetries attempts N D).delays =
      (List.range ((runWithRetries attempts N D).invocations - 1)).map
        (fun k => D * 2 ^ k) ∧
    1 ≤ (runWithRetries attempts N D).invocations := by
  constructor
  · have h := retryGo_delays attempts N D (N + 1) 0 none (by omega)
    show (retryGo attempts N D 0 (N + 1) none).delays =
      (List.range ((retryGo attempts N D 0 (N + 1) none).invocations - 1)).map
        (fun k => D * 2 ^ k)
    rw [h]
    apply List.map_congr_left
    intro a _
    simp
  · exact retryGo_invocations_pos attempts N D (N + 1) 0 none (by omega)

/-! ### Claim C7 — the result check of `AgentWorkflow.run` -/

/-- Final state whose `result` was set — to the schema-valid value
`false`. -/
def falseResultState : WFState := ⟨humanIn, [], some (.bool false)⟩

/-- C7 counterexample: a completed graph state whose `result` WAS set (to
the JSON value `false`) still makes `run` fail with the NoResult error,
because the source tests truthiness (`!finalState.result`), not
presence. -/
theorem runCheck_false_result :
    runCheck (some falseResultState) = .error noResultMsg ∧
    falseResultState.result ≠ none := by
  exact ⟨rfl, by simp [falseResultState]⟩

/-- C7 (amended): after the compiled graph completes, `run` fails with the
NoResult condition exactly when `result` was never set or was set to a
JavaScript-falsy value (`null`, `false`, `0`, or the empty string);
otherwise it returns `result`. -/
theorem runCheck_spec (fs : Option WFState) :
    (fs = none → runCheck fs = .error noResultMsg) ∧
    (∀ st, fs = some st → st.result = none → runCheck fs = .error noResultMsg) ∧
    (∀ st r, fs = some st → st.result = some r → truthy r = false →
      runCheck fs = .error noResultMsg) ∧
    (∀ st r, fs = some st → st.result = some r → truthy r = true →
      runCheck fs = .ok r) := by
  refine ⟨?_, ?_, ?_, ?_⟩
  · intro h; subst h; rfl
  · intro st h hr; subst h; simp [runCheck, hr]
  · intro st r h hr ht; subst h; simp [runCheck, hr, ht]
  · intro st r h hr ht; subst h; simp [runCheck, hr, ht]

/-! ### Claims C4 and C10 — the tool executor -/

theorem toolsNode_append (tools : List ToolDef) (s : WFState) (m : Message)
    (calls : List ToolCall) (ht : tools ≠ []) (hm : lastMsg s.messages = some m)
    (hr : m.role = .ai) (hc : m.toolCalls = some calls) (hne : calls ≠ []) :
    createToolsNode tools s =
      { s with messages := s.messages ++ calls.map (execToolCall tools) } := by
  have h1 : tools.isEmpty = false := by
    rw [← Bool.not_eq_true, List.isEmpty_iff]; exact ht
  have h2 : calls.isEmpty = false := by
    rw [← Bool.not_eq_true, List.isEmpty_iff]; exact hne
  simp [createToolsNode, h1, hm, hr, hc, h2]

/-- C4 (amended): whenever at least one tool is registered and the last
message is an `ai` message carrying tool-call requests, the tools node
appends, in request order, exactly one `tool` message per request, each
tagged with the request's identifier and its effective name (the request's
own name, or the substitute "unknown-tool" when the name is missing or
empty): the invocation result when the effective name is registered and
the invocation succeeds, an error string naming the missing tool when the
effective name is unregistered, and an error string carrying the failure
reason when the invocation raises. The node never halts early, and being a
total function it never raises. -/
theorem toolsNode_spec (tools : List ToolDef) (s : WFState) (m : Message)
    (calls : List ToolCall) (ht : tools ≠ []) (hm : lastMsg s.messages = some m)
    (hr : m.role = .ai) (hc : m.toolCalls = some calls) (hne : calls ≠ []) :
    (createToolsNode tools s).messages = s.messages ++ calls.map (execToolCall tools) ∧
    ∀ tc ∈ calls,
      (execToolCall tools tc).role = .tool ∧
      (execToolCall tools tc).name = some (effectiveToolName tc) ∧
      (execToolCall tools tc).toolCallId = tc.id ∧
      (lookupTool tools (effectiveToolName tc) = none →
        (execToolCall tools tc).content = .str (toolNotFoundMsg (effectiveToolName tc))) ∧
      (∀ t r, lookupTool tools (effectiveToolName tc) = some t →
        t.run tc.args = .ok r → (execToolCall tools tc).content = r) ∧
      (∀ t e, lookupTool tools (effectiveToolName tc) = some t →
        t.run tc.args = .error e →
        (execToolCall tools tc).content = .str ("Error: " ++ e)) := by
  refine ⟨by rw [toolsNode_append tools s m calls ht hm hr hc hne], ?_⟩
  intro tc _
  simp only [execToolCall]
  cases hl : lookupTool tools (effectiveToolName tc) with
  | none =>
    refine ⟨rfl, rfl, rfl, fun _ => rfl, ?_, ?_⟩
    · intro t r h hrun; simp at h
    · intro t e h hrun; simp at h
  | some t0 =>
    dsimp only
    refine ⟨?_, ?_, ?_, ?_, ?_, ?_⟩
    · cases t0.run tc.args <;> rfl
    · cases t0.run tc.args <;> rfl
    · cases t0.run tc.args <;> rfl
    · intro h; simp at h
    · intro t r h hrun
      cases h
      rw [hrun]
      rfl
    · intro t e h hrun
      cases h
      rw [hrun]
      rfl

/-- An echo tool used in concrete instances. -/
def echoTool : ToolDef := ⟨"echo", fun j => .ok j⟩

/-- A request for the registered echo tool. -/
def callOk : ToolCall := ⟨some "echo", .str "x", some "id1"⟩

/-- A request for an unregistered tool. -/
def callMissing : ToolCall := ⟨some "nope", .null, some "id2"⟩

/-- An AI message carrying the two requests above. -/
def reqMsg : Message := ⟨.ai, .str "", some [callOk, callMissing], none, none⟩

/-- A state whose last message is `reqMsg`. -/
def reqState : WFState := ⟨humanIn, [reqMsg], none⟩

theorem toolsNode_spec_witness :
    (createToolsNode [echoTool] reqState).messages =
      reqState.messages ++ ([callOk, callMissing].map (execToolCall [echoTool])) :=
  (toolsNode_spec [echoTool] reqState reqMsg [callOk, callMissing]
    (by simp) rfl rfl rfl (by simp)).1

/-- C4 counterexample: with an empty registered tool set, the node returns
the state unchanged even though the last message is an `ai` message
carrying (named, identified) tool-call requests — no per-request `tool`
message is appended, against the claim as stated. -/
theorem toolsNode_empty_toolset :
    createToolsNode [] reqState = reqState ∧
    lastMsg reqState.messages = some reqMsg ∧
    reqMsg.role = .ai ∧
    reqMsg.toolCalls = some [callOk, callMissing] ∧
    ([callOk, callMissing] : List ToolCall) ≠ [] :=
  ⟨rfl, rfl, rfl, rfl, by simp⟩

/-- C10: a request whose name is missing or empty is looked up and tagged
under the substitute name "unknown-tool"; when no tool is registered under
that name the appended `tool` message carries the not-found error naming
"unknown-tool" and the request's identifier; and in an appending pass of
the node the produced message is among the output messages. -/
theorem unknownTool_spec (tools : List ToolDef) (tc : ToolCall)
    (h : tc.name = none ∨ tc.name = some "") :
    effectiveToolName tc = "unknown-tool" ∧
    (execToolCall tools tc).name = some "unknown-tool" ∧
    (execToolCall tools tc).toolCallId = tc.id ∧
    (lookupTool tools "unknown-tool" = none →
      (execToolCall tools tc).content = .str (toolNotFoundMsg "unknown-tool")) ∧
    (∀ s m calls, tools ≠ [] → lastMsg s.messages = some m → m.role = .ai →
      m.toolCalls = some calls → tc ∈ calls →
      execToolCall tools tc ∈ (createToolsNode tools s).messages) := by
  have heff : effectiveToolName tc = "unknown-tool" := by
    rcases h with h | h <;> simp [effectiveToolName, h]
  refine ⟨heff, ?_, ?_, ?_, ?_⟩
  · simp only [execToolCall, heff]
    cases hl : lookupTool tools "unknown-tool" with
    | none => rfl
    | some t0 => dsimp only; cases t0.run tc.args <;> rfl
  · simp only [execToolCall, heff]
    cases hl : lookupTool tools "unknown-tool" with
    | none => rfl
    | some t0 => dsimp only; cases t0.run tc.args <;> rfl
  · intro hl
    simp only [execToolCall, heff, hl]
    rfl
  · intro s m calls ht hm hr hc hmem
    have hne : calls ≠ [] := List.ne_nil_of_mem hmem
    rw [toolsNode_append tools s m calls ht hm hr hc hne]
    exact List.mem_append_right _ (List.mem_map_of_mem _ hmem)

/-- A request with an empty name. -/
def emptyNameCall : ToolCall := ⟨some "", .null, some "id9"⟩

theorem unknownTool_spec_witness :
    effectiveToolName emptyNameCall = "unknown-tool" ∧
    (execToolCall [echoTool] emptyNameCall).content =
      .str (toolNotFoundMsg "unknown-tool") := by
  have h := unknownTool_spec [echoTool] emptyNameCall (Or.inr rfl)
  exact ⟨h.1, h.2.2.2.1 rfl⟩

/-! ### Claim C8 — the model invoker -/

/-- C8: for every model-client response, the LLM node appends exactly one
`ai` message to `messages` (leaving `userInput` and `result` alone): a
canonical `AIMessage` response passes through unchanged with its tool-call
requests preserved; a bare string is wrapped; a chunk's string content
that itself parses as JSON is replaced by the parsed form, a string that
does not parse stays a string, non-string content is wrapped as is, and
absent content becomes the empty string. -/
theorem llmNode_spec (resp : LLMResponse) (s : WFState) :
    ∃ m, (createLLMNode resp s).messages = s.messages ++ [m] ∧
      (createLLMNode resp s).userInput = s.userInput ∧
      (createLLMNode resp s).result = s.result ∧
      m.role = .ai ∧
      (∀ c tc, resp = .aiMessage c tc → m = ⟨.ai, c, tc, none, none⟩) ∧
      (∀ str, resp = .rawString str → m = ⟨.ai, .str str, none, none, none⟩) ∧
      (∀ str j, resp = .chunk (some (.str str)) → jsonParse str = some j →
        m = ⟨.ai, j, none, none, none⟩) ∧
      (∀ str, resp = .chunk (some (.str str)) → jsonParse str = none →
        m = ⟨.ai, .str str, none, none, none⟩) ∧
      (∀ c, resp = .chunk (some c) → (∀ str, c ≠ .str str) →
        m = ⟨.ai, c, none, none, none⟩) ∧
      (resp = .chunk none → m = ⟨.ai, .str "", none, none, none⟩) := by
  cases resp with
  | rawString str =>
    refine ⟨⟨.ai, .str str, none, none, none⟩, rfl, rfl, rfl, rfl, ?_, ?_, ?_, ?_, ?_, ?_⟩
    · intro c tc h; simp at h
    · intro str2 h; injection h with h1; subst h1; rfl
    · intro str2 j h; simp at h
    · intro str2 h; simp at h
    · intro c h; simp at h
    · intro h; simp at h
  | aiMessage c tc =>
    refine ⟨⟨.ai, c, tc, none, none⟩, rfl, rfl, rfl, rfl, ?_, ?_, ?_, ?_, ?_, ?_⟩
    · intro c2 tc2 h
      injection h with h1 h2
      subst h1; subst h2; rfl
    · intro str2 h; simp at h
    · intro str2 j h; simp at h
    · intro str2 h; simp at h
    · intro c2 h; simp at h
    · intro h; simp at h
  | chunk oc =>
    cases oc with
    | none =>
      refine ⟨⟨.ai, .str "", none, none, none⟩, rfl, rfl, rfl, rfl, ?_, ?_, ?_, ?_, ?_, ?_⟩
      · intro c tc h; simp at h
      · intro str2 h; simp at h
      · intro str2 j h; simp at h
      · intro str2 h; simp at h
      · intro c2 h; simp at h
      · intro _; rfl
    | some c =>
      cases c with
      | str str =>
        cases hj : jsonParse str with
        | some j =>
          refine ⟨⟨.ai, j, none, none, none⟩, by simp [createLLMNode, hj], rfl, rfl, rfl,
            ?_, ?_, ?_, ?_, ?_, ?_⟩
          · intro c2 tc2 h; simp at h
          · intro str2 h; simp at h
          · intro str2 j2 h hj2
            injection h with h1
            injection h1 with h2
            injection h2 with h3
            subst h3
            rw [hj] at hj2
            injection hj2 with h4
            subst h4; rfl
          · intro str2 h hj2
            injection h with h1
            injection h1 with h2
            injection h2 with h3
            subst h3
            rw [hj] at hj2
            simp at hj2
          · intro c2 h hstr
            injection h with h1
            injection h1 with h2
            exact absurd h2.symm (hstr str)
          · intro h; simp at h
        | none =>
          refine ⟨⟨.ai, .str str, none, none, none⟩, by simp [createLLMNode, hj], rfl, rfl, rfl,
            ?_, ?_, ?_, ?_, ?_, ?_⟩
          · intro c2 tc2 h; simp at h
          · intro str2 h; simp at h
          · intro str2 j2 h hj2
            injection h with h1
            injection h1 with h2
            injection h2 with h3
            subst h3
            rw [hj] at hj2
            simp at hj2
          · intro str2 h hj2
            injection h with h1
            injection h1 with h2
            injection h2 with h3
            subst h3; rfl
          · intro c2 h hstr
            injection h with h1
            injection h1 with h2
            exact absurd h2.symm (hstr str)
          · intro h; simp at h
      | null =>
        refine ⟨⟨.ai, .null, none, none, none⟩, rfl, rfl, rfl, rfl, ?_, ?_, ?_, ?_, ?_, ?_⟩
        · intro c2 tc2 h; simp at h
        · intro str2 h; simp at h
        · intro str2 j2 h; simp at h
        · intro str2 h; simp at h
        · intro c2 h hstr
          injection h with h1
          injection h1 with h2
          subst h2; rfl
        · intro h; simp at h
      | bool b =>
        refine ⟨⟨.ai, .bool b, none, none, none⟩, rfl, rfl, rfl, rfl, ?_, ?_, ?_, ?_, ?_, ?_⟩
        · intro c2 tc2 h; simp at h
        · intro str2 h; simp at h
        · intro str2 j2 h; simp at h
        · intro str2 h; simp at h
        · intro c2 h hstr
          injection h with h1
          injection h1 with h2
          subst h2; rfl
        · intro h; simp at h
      | num n =>
        refine ⟨⟨.ai, .num n, none, none, none⟩, rfl, rfl, rfl, rfl, ?_, ?_, ?_, ?_, ?_, ?_⟩
        · intro c2 tc2 h; simp at h
        · intro str2 h; simp at h
        · intro str2 j2 h; simp at h
        · intro str2 h; simp at h
        · intro c2 h hstr
          injection h with h1
          injection h1 with h2
          subst h2; rfl
        · intro h; simp at h
      | arr xs =>
        refine ⟨⟨.ai, .arr xs, none, none, none⟩, rfl, rfl, rfl, rfl, ?_, ?_, ?_, ?_, ?_, ?_⟩
        · intro c2 tc2 h; simp at h
        · intro str2 h; simp at h
        · intro str2 j2 h; simp at h
        · intro str2 h; simp at h
        · intro c2 h hstr
          injection h with h1
          injection h1 with h2
          subst h2; rfl
        · intro h; simp at h
      | obj ms =>
        refine ⟨⟨.ai, .obj ms, none, none, none⟩, rfl, rfl, rfl, rfl, ?_, ?_, ?_, ?_, ?_, ?_⟩
        · intro c2 tc2 h; simp at h
        · intro str2 h; simp at h
        · intro str2 j2 h; simp at h
        · intro str2 h; simp at h
        · intro c2 h hstr
          injection h with h1
          injection h1 with h2
          subst h2; rfl
        · intro h; simp at h

/-! ### Claim C9 — messages never shrink -/

theorem toolsNode_result_cases (tools : List ToolDef) (s : WFState) :
    createToolsNode tools s = s ∨
    ∃ tmsgs, createToolsNode tools s = { s with messages := s.messages ++ tmsgs } := by
  unfold createToolsNode
  by_cases h1 : tools.isEmpty
  · simp [h1]
  · simp only [h1, Bool.false_eq_true, if_false, reduceIte]
    cases hm : lastMsg s.messages with
    | none => left; rfl
    | some m =>
      by_cases hr : m.role = .ai
      · simp only [hr, if_true, reduceIte]
        cases hc : m.toolCalls with
        | none => left; rfl
        | some calls =>
          by_cases he : calls.isEmpty
          · simp [he]
          · simp only [he, Bool.false_eq_true, if_false, reduceIte]
            right; exact ⟨_, rfl⟩
      · simp only [hr, if_false, reduceIte]
        left; trivial

/-- C9: within one workflow execution every node returns a `messages`
sequence extending its input sequence — the LLM node and the tools node
return the input messages followed by exactly the messages they produced
(possibly none), and the parse node, when it succeeds, leaves `messages`
unchanged; in particular, for a tool-free model response (the last `ai`
message carries no tool calls) the tools node returns the state value
itself unchanged. `messages` never shrinks. -/
theorem nodes_monotone :
    (∀ resp s, ∃ t, (createLLMNode resp s).messages = s.messages ++ t) ∧
    (∀ tools s, ∃ t, (createToolsNode tools s).messages = s.messages ++ t) ∧
    (∀ sch s s2, createParseNode sch s = .ok s2 → s2.messages = s.messages) ∧
    (∀ tools s m, lastMsg s.messages = some m → m.role = .ai →
      (m.toolCalls = none ∨ m.toolCalls = some []) → createToolsNode tools s = s) := by
  refine ⟨?_, ?_, ?_, ?_⟩
  · intro resp s
    exact ⟨_, rfl⟩
  · intro tools s
    rcases toolsNode_result_cases tools s with h | ⟨tmsgs, h⟩
    · exact ⟨[], by rw [h]; simp⟩
    · exact ⟨tmsgs, by rw [h]⟩
  · intro sch s s2 h
    unfold createParseNode at h
    split at h
    · split at h
      · split at h
        · split at h
          · cases h
            rfl
          · simp at h
        · simp at h
      · simp at h
    · simp at h
  · intro tools s m hm hr hc
    by_cases h1 : tools.isEmpty
    · simp [createToolsNode, h1]
    · rcases hc with hc | hc <;> simp [createToolsNode, h1, hm, hr, hc]

/-! ### Character and decimal-rendering lemmas -/

theorem char_ext_toNat {c d : Char} (h : c.toNat = d.toNat) : c = d :=
  Char.eq_of_val_eq (UInt32.toNat.inj h)

theorem toNat_ofNat_small (m : Nat) (h : m < 55296) : (Char.ofNat m).toNat = m := by
  have hv : Nat.isValidChar m := Or.inl h
  rw [Char.ofNat, dif_pos hv]
  rfl

theorem toNat_digitChar (d : Nat) (h : d < 10) : (digitChar d).toNat = 48 + d := by
  unfold digitChar
  exact toNat_ofNat_small _ (by omega)

theorem isDigitChar_iff (c : Char) : isDigitChar c = true ↔ 48 ≤ c.toNat ∧ c.toNat ≤ 57 := by
  simp [isDigitChar]

theorem isDigitChar_digitChar (d : Nat) (h : d < 10) : isDigitChar (digitChar d) = true := by
  rw [isDigitChar_iff, toNat_digitChar d h]
  omega

theorem natToCharsAux_congr : ∀ n f1 f2, n < f1 → n < f2 →
    natToCharsAux f1 n = natToCharsAux f2 n := by
  intro n
  induction n using Nat.strong_induction_on with
  | _ n ih =>
    intro f1 f2 h1 h2
    match f1, h1 with
    | f1 + 1, _ =>
      match f2, h2 with
      | f2 + 1, _ =>
        by_cases h : n < 10
        · simp [natToCharsAux, h]
        · simp only [natToCharsAux, h, if_false, reduceIte]
          congr 1
          exact ih (n / 10) (by omega) f1 f2 (by omega) (by omega)

theorem natToChars_lt10 (n : Nat) (h : n < 10) : natToChars n = [digitChar n] := by
  simp [natToChars, natToCharsAux, h]

theorem natToChars_ge10 (n : Nat) (h : 10 ≤ n) :
    natToChars n = natToChars (n / 10) ++ [digitChar (n % 10)] := by
  unfold natToChars
  have h1 : natToCharsAux (n + 1) n = natToCharsAux n (n / 10) ++ [digitChar (n % 10)] := by
    simp [natToCharsAux, Nat.not_lt.mpr h]
  rw [h1]
  congr 1
  exact natToCharsAux_congr (n / 10) n (n / 10 + 1) (by omega) (by omega)

theorem natToChars_ne_nil (n : Nat) : natToChars n ≠ [] := by
  by_cases h : n < 10
  · rw [natToChars_lt10 n h]; simp
  · rw [natToChars_ge10 n (by omega)]; simp

theorem natToChars_digits : ∀ n, ∀ c ∈ natToChars n, isDigitChar c = true := by
  intro n
  induction n using Nat.strong_induction_on with
  | _ n ih =>
    intro c hc
    by_cases h : n < 10
    · rw [natToChars_lt10 n h] at hc
      simp at hc
      subst hc
      exact isDigitChar_digitChar n h
    · rw [natToChars_ge10 n (by omega)] at hc
      rcases List.mem_append.mp hc with hc | hc
      · exact ih (n / 10) (by omega) c hc
      · simp at hc
        subst hc
        exact isDigitChar_digitChar _ (Nat.mod_lt _ (by omega))

theorem natToChars_head_ne_zero : ∀ n, n ≠ 0 → ∀ c cs, natToChars n = c :: cs → c ≠ '0' := by
  intro n
  induction n using Nat.strong_induction_on with
  | _ n ih =>
    intro hn c cs hcons
    by_cases h : n < 10
    · rw [natToChars_lt10 n h] at hcons
      injection hcons with h1 _
      subst h1
      intro hz
      have := congrArg Char.toNat hz
      rw [toNat_digitChar n h] at this
      have h0 : ('0' : Char).toNat = 48 := by decide
      omega
    · rw [natToChars_ge10 n (by omega)] at hcons
      cases hnc : natToChars (n / 10) with
      | nil => exact absurd hnc (natToChars_ne_nil _)
      | cons c2 cs2 =>
        rw [hnc] at hcons
        injection hcons with h1 _
        subst h1
        exact ih (n / 10) (by omega) (by omega) c2 cs2 hnc

theorem digitsToNat_append (a : List Char) (d : Char) :
    digitsToNat (a ++ [d]) = digitsToNat a * 10 + (d.toNat - 48) := by
  simp [digitsToNat, List.foldl_append]

theorem digitsToNat_natToChars : ∀ n, digitsToNat (natToChars n) = n := by
  intro n
  induction n using Nat.strong_induction_on with
  | _ n ih =>
    by_cases h : n < 10
    · rw [natToChars_lt10 n h]
      simp [digitsToNat, toNat_digitChar n h]
    · rw [natToChars_ge10 n (by omega), digitsToNat_append,
        ih (n / 10) (by omega), toNat_digitChar _ (Nat.mod_lt _ (by omega))]
      omega

theorem takeDigits_append (ds rest : List Char) (hds : ∀ c ∈ ds, isDigitChar c = true)
    (hrest : noDigitHead rest = true) : takeDigits (ds ++ rest) = (ds, rest) := by
  induction ds with
  | nil =>
    cases rest with
    | nil => rfl
    | cons c r =>
      simp only [noDigitHead, Bool.not_eq_true'] at hrest
      simp [takeDigits, hrest]
  | cons d ds ihds =>
    have hd : isDigitChar d = true := hds d (by simp)
    simp only [List.cons_append, takeDigits, hd, if_true, reduceIte, List.append_eq]
    rw [ihds (fun c hc => hds c (by simp [hc]))]

theorem parseNatNum_natToChars (n : Nat) (rest : List Char)
    (hrest : noDigitHead rest = true) :
    parseNatNum (natToChars n ++ rest) = some (n, rest) := by
  by_cases hn : n = 0
  · subst hn
    have h0 : natToChars 0 = ['0'] := by
      rw [natToChars_lt10 0 (by omega)]
      decide
    rw [h0]
    cases rest with
    | nil => rfl
    | cons d r =>
      simp only [noDigitHead, Bool.not_eq_true'] at hrest
      simp [parseNatNum, hrest]
  · cases hnc : natToChars n with
    | nil => exact absurd hnc (natToChars_ne_nil _)
    | cons c cs =>
      have hcne : c ≠ '0' := natToChars_head_ne_zero n hn c cs hnc
      have hcd : isDigitChar c = true := natToChars_digits n c (by rw [hnc]; simp)
      simp only [List.cons_append, parseNatNum, hcne, if_false, hcd, if_true, reduceIte]
      rw [takeDigits_append cs rest
        (fun x hx => natToChars_digits n x (by rw [hnc]; simp [hx])) hrest]
      have : digitsToNat (c :: cs) = n := by rw [← hnc]; exact digitsToNat_natToChars n
      simp [this]

theorem parseNumberFrom_intToChars (n : Int) (rest : List Char)
    (hrest : noDigitHead rest = true) :
    parseNumberFrom (intToChars n ++ rest) = some (.num n, rest) := by
  by_cases hn : n < 0
  · simp only [intToChars, hn, if_true, reduceIte, List.cons_append]
    simp only [parseNumberFrom, if_true, reduceIte]
    rw [parseNatNum_natToChars n.natAbs rest hrest]
    dsimp only
    have habs : -((n.natAbs : Nat) : Int) = n := by omega
    rw [habs]
  · simp only [intToChars, hn, if_false, reduceIte]
    cases hnc : natToChars n.natAbs with
    | nil => exact absurd hnc (natToChars_ne_nil _)
    | cons c cs =>
      have hcd : isDigitChar c = true := natToChars_digits _ c (by rw [hnc]; simp)
      have hcm : c ≠ '-' := by
        intro he
        rw [isDigitChar_iff] at hcd
        have := congrArg Char.toNat he
        have h45 : ('-' : Char).toNat = 45 := by decide
        omega
      simp only [List.cons_append, parseNumberFrom, hcm, if_false, reduceIte]
      rw [← List.cons_append, ← hnc, parseNatNum_natToChars n.natAbs rest hrest]
      dsimp only
      have habs : ((n.natAbs : Nat) : Int) = n := by omega
      rw [habs]

/-! ### String-literal round trip -/

theorem hexVal_hexDigitChar (x : Nat) (h : x < 16) : hexVal (hexDigitChar x) = some x := by
  interval_cases x <;> decide

theorem string_mk_data (s : String) : String.mk s.data = s := rfl

theorem psb_quote (l : List Char) (acc : List Char) :
    parseStringBody ('"' :: l) acc = some (String.mk acc.reverse, l) := rfl

theorem psb_ord (c : Char) (l acc : List Char) (h1 : c ≠ '"') (h2 : c ≠ '\\')
    (h3 : ¬ c.toNat < 32) :
    parseStringBody (c :: l) acc = parseStringBody l (c :: acc) := by
  rw [parseStringBody.eq_def]
  split
  · rename_i heq
    simp at heq
  · rename_i heq
    injection heq with hc _
    exact absurd hc h2
  · rename_i heq
    injection heq with hc _
    exact absurd hc h2
  · rename_i heq
    injection heq with hc _
    exact absurd hc h2
  · rename_i heq
    injection heq with hc hl
    subst hc
    subst hl
    simp [h1, h3]

theorem psb_escape_quote (l acc : List Char) :
    parseStringBody ('\\' :: '"' :: l) acc = parseStringBody l ('"' :: acc) := rfl

theorem psb_escape_backslash (l acc : List Char) :
    parseStringBody ('\\' :: '\\' :: l) acc = parseStringBody l ('\\' :: acc) := rfl

theorem psb_escape_b (l acc : List Char) :
    parseStringBody ('\\' :: 'b' :: l) acc = parseStringBody l (Char.ofNat 8 :: acc) := rfl

theorem psb_escape_t (l acc : List Char) :
    parseStringBody ('\\' :: 't' :: l) acc = parseStringBody l (Char.ofNat 9 :: acc) := rfl

theorem psb_escape_n (l acc : List Char) :
    parseStringBody ('\\' :: 'n' :: l) acc = parseStringBody l (Char.ofNat 10 :: acc) := rfl

theorem psb_escape_f (l acc : List Char) :
    parseStringBody ('\\' :: 'f' :: l) acc = parseStringBody l (Char.ofNat 12 :: acc) := rfl

theorem psb_escape_r (l acc : List Char) :
    parseStringBody ('\\' :: 'r' :: l) acc = parseStringBody l (Char.ofNat 13 :: acc) := rfl

theorem psb_escape_ctrl (c : Char) (l acc : List Char) (h : c.toNat < 32) :
    parseStringBody
      ('\\' :: 'u' :: '0' :: '0' ::
        hexDigitChar (c.toNat / 16) :: hexDigitChar (c.toNat % 16) :: l) acc =
      parseStringBody l (c :: acc) := by
  have e1 : hexVal '0' = some 0 := by decide
  have e2 : hexVal (hexDigitChar (c.toNat / 16)) = some (c.toNat / 16) :=
    hexVal_hexDigitChar _ (by omega)
  have e3 : hexVal (hexDigitChar (c.toNat % 16)) = some (c.toNat % 16) :=
    hexVal_hexDigitChar _ (by omega)
  simp only [parseStringBody, e1, e2, e3]
  have hc2 : ((0 * 16 + 0) * 16 + c.toNat / 16) * 16 + c.toNat % 16 = c.toNat := by omega
  rw [hc2]
  have hcond : (decide (55296 ≤ c.toNat) && decide (c.toNat < 57344)) = false := by
    have : decide (55296 ≤ c.toNat) = false := decide_eq_false (by omega)
    rw [this, Bool.false_and]
  rw [if_neg (by simp [hcond])]
  rw [Char.ofNat_toNat]

theorem parseStringBody_encode : ∀ (cs acc rest : List Char),
    parseStringBody (encodeChars cs ++ ('"' :: rest)) acc =
      some (String.mk (acc.reverse ++ cs), rest) := by
  intro cs
  induction cs with
  | nil =>
    intro acc rest
    simp [encodeChars, psb_quote]
  | cons c cs ih =>
    intro acc rest
    have hstep : encodeChars (c :: cs) = encodeChar c ++ encodeChars cs := rfl
    rw [hstep, List.append_assoc]
    by_cases h1 : c = '"'
    · subst h1
      rw [show encodeChar '"' = ['\\', '"'] from rfl]
      rw [show (['\\', '"'] : List Char) ++ (encodeChars cs ++ ('"' :: rest)) =
        '\\' :: '"' :: (encodeChars cs ++ ('"' :: rest)) from rfl]
      rw [psb_escape_quote, ih]
      simp
    · by_cases h2 : c = '\\'
      · subst h2
        rw [show encodeChar '\\' = ['\\', '\\'] from rfl]
        rw [show (['\\', '\\'] : List Char) ++ (encodeChars cs ++ ('"' :: rest)) =
          '\\' :: '\\' :: (encodeChars cs ++ ('"' :: rest)) from rfl]
        rw [psb_escape_backslash, ih]
        simp
      · by_cases h3 : c = Char.ofNat 8
        · subst h3
          rw [show encodeChar (Char.ofNat 8) = ['\\', 'b'] from rfl]
          rw [show (['\\', 'b'] : List Char) ++ (encodeChars cs ++ ('"' :: rest)) =
            '\\' :: 'b' :: (encodeChars cs ++ ('"' :: rest)) from rfl]
          rw [psb_escape_b, ih]
          simp
        · by_cases h4 : c = Char.ofNat 9
          · subst h4
            rw [show encodeChar (Char.ofNat 9) = ['\\', 't'] from rfl]
            rw [show (['\\', 't'] : List Char) ++ (encodeChars cs ++ ('"' :: rest)) =
              '\\' :: 't' :: (encodeChars cs ++ ('"' :: rest)) from rfl]
            rw [psb_escape_t, ih]
            simp
          · by_cases h5 : c = Char.ofNat 10
            · subst h5
              rw [show encodeChar (Char.ofNat 10) = ['\\', 'n'] from rfl]
              rw [show (['\\', 'n'] : List Char) ++ (encodeChars cs ++ ('"' :: rest)) =
                '\\' :: 'n' :: (encodeChars cs ++ ('"' :: rest)) from rfl]
              rw [psb_escape_n, ih]
              simp
            · by_cases h6 : c = Char.ofNat 12
              · subst h6
                rw [show encodeChar (Char.ofNat 12) = ['\\', 'f'] from rfl]
                rw [show (['\\', 'f'] : List Char) ++ (encodeChars cs ++ ('"' :: rest)) =
                  '\\' :: 'f' :: (encodeChars cs ++ ('"' :: rest)) from rfl]
                rw [psb_escape_f, ih]
                simp
              · by_cases h7 : c = Char.ofNat 13
                · subst h7
                  rw [show encodeChar (Char.ofNat 13) = ['\\', 'r'] from rfl]
                  rw [show (['\\', 'r'] : List Char) ++ (encodeChars cs ++ ('"' :: rest)) =
                    '\\' :: 'r' :: (encodeChars cs ++ ('"' :: rest)) from rfl]
                  rw [psb_escape_r, ih]
                  simp
                · by_cases h8 : c.toNat < 32
                  · have henc : encodeChar c =
                        ['\\', 'u', '0', '0', hexDigitChar (c.toNat / 16),
                          hexDigitChar (c.toNat % 16)] := by
                      simp [encodeChar, h1, h2, h3, h4, h5, h6, h7, h8]
                    rw [henc]
                    rw [show (['\\', 'u', '0', '0', hexDigitChar (c.toNat / 16),
                        hexDigitChar (c.toNat % 16)] : List Char) ++
                        (encodeChars cs ++ ('"' :: rest)) =
                        '\\' :: 'u' :: '0' :: '0' :: hexDigitChar (c.toNat / 16) ::
                          hexDigitChar (c.toNat % 16) ::
                          (encodeChars cs ++ ('"' :: rest)) from rfl]
                    rw [psb_escape_ctrl c _ _ h8, ih]
                    simp
                  · have henc : encodeChar c = [c] := by
                      simp [encodeChar, h1, h2, h3, h4, h5, h6, h7, h8]
                    rw [henc]
                    rw [show ([c] : List Char) ++ (encodeChars cs ++ ('"' :: rest)) =
                      c :: (encodeChars cs ++ ('"' :: rest)) from rfl]
                    rw [psb_ord c _ _ h1 h2 h8, ih]
                    simp

/-! ### Head-character and dispatch lemmas for the parser -/

theorem toNat_ne_imp {c d : Char} (h : c.toNat ≠ d.toNat) : c ≠ d :=
  fun he => h (congrArg Char.toNat he)

theorem skipWS_cons {c : Char} (l : List Char) (h : jsonWS c = false) :
    skipWS (c :: l) = c :: l := by
  simp [skipWS, h]

theorem jsonWS_toNat (c : Char) (h : jsonWS c = true) :
    c.toNat = 32 ∨ c.toNat = 9 ∨ c.toNat = 10 ∨ c.toNat = 13 := by
  simp only [jsonWS, Bool.or_eq_true, decide_eq_true_eq] at h
  rcases h with ((h | h) | h) | h <;> rw [h] <;> simp [toNat_ofNat_small] <;> decide

theorem jsWS_toNat (c : Char) (h : jsWS c = true) :
    c.toNat = 32 ∨ c.toNat = 9 ∨ c.toNat = 10 ∨ c.toNat = 11 ∨ c.toNat = 12 ∨
      c.toNat = 13 ∨ c.toNat = 160 ∨ c.toNat = 65279 := by
  simp only [jsWS, Bool.or_eq_true, decide_eq_true_eq] at h
  rcases h with ((((((h | h) | h) | h) | h) | h) | h) | h <;> rw [h] <;>
    simp [toNat_ofNat_small] <;> decide

/-- The possible first characters of a stringified value. -/
theorem strfyChars_head (v : Json) : ∃ c cs, strfyChars v = c :: cs ∧
    (c = 'n' ∨ c = 't' ∨ c = 'f' ∨ c = '"' ∨ c = '[' ∨ c = lbrace ∨ c = '-' ∨
      isDigitChar c = true) := by
  cases v with
  | null => exact ⟨'n', ['u', 'l', 'l'], by simp [strfyChars, nullChars], by simp⟩
  | bool b =>
    cases b with
    | true => exact ⟨'t', ['r', 'u', 'e'], by simp [strfyChars, trueChars], by simp⟩
    | false => exact ⟨'f', ['a', 'l', 's', 'e'], by simp [strfyChars, falseChars], by simp⟩
  | num n =>
    by_cases hn : n < 0
    · refine ⟨'-', natToChars n.natAbs, ?_, by simp⟩
      simp [strfyChars, intToChars, hn]
    · cases hnc : natToChars n.natAbs with
      | nil => exact absurd hnc (natToChars_ne_nil _)
      | cons c cs =>
        refine ⟨c, cs, ?_, ?_⟩
        · simp [strfyChars, intToChars, hn, hnc]
        · have := natToChars_digits n.natAbs c (by rw [hnc]; simp)
          simp [this]
  | str s => exact ⟨'"', encodeChars s.data ++ ['"'], by simp [strfyChars], by simp⟩
  | arr xs =>
    cases xs with
    | nil => exact ⟨'[', [']'], by simp [strfyChars], by simp⟩
    | cons v vs =>
      exact ⟨'[', strfyChars v ++ strfyElemsTail vs ++ [']'], by simp [strfyChars], by simp⟩
  | obj ms =>
    cases ms with
    | nil => exact ⟨lbrace, [rbrace], by simp [strfyChars], by simp⟩
    | cons k v ms =>
      exact ⟨lbrace, strfyMemberChars k v ++ strfyMembersTail ms ++ [rbrace],
        by simp [strfyChars], by simp⟩

/-- Facts about the possible head characters needed to steer the parser. -/
theorem head_facts (c : Char)
    (h : c = 'n' ∨ c = 't' ∨ c = 'f' ∨ c = '"' ∨ c = '[' ∨ c = lbrace ∨ c = '-' ∨
      isDigitChar c = true) :
    jsonWS c = false ∧ jsWS c = false ∧ c ≠ ']' ∧ c ≠ rbrace := by
  have htn : c.toNat = 110 ∨ c.toNat = 116 ∨ c.toNat = 102 ∨ c.toNat = 34 ∨
      c.toNat = 91 ∨ c.toNat = 123 ∨ c.toNat = 45 ∨
      (48 ≤ c.toNat ∧ c.toNat ≤ 57) := by
    rcases h with h | h | h | h | h | h | h | h
    · rw [h]; left; decide
    · rw [h]; right; left; decide
    · rw [h]; right; right; left; decide
    · rw [h]; right; right; right; left; decide
    · rw [h]; right; right; right; right; left; decide
    · rw [h]; right; right; right; right; right; left
      simp [lbrace, toNat_ofNat_small]
    · rw [h]; right; right; right; right; right; right; left; decide
    · rw [isDigitChar_iff] at h; tauto
  refine ⟨?_, ?_, ?_, ?_⟩
  · cases hw : jsonWS c
    · rfl
    · have := jsonWS_toNat c hw
      omega
  · cases hw : jsWS c
    · rfl
    · have := jsWS_toNat c hw
      omega
  · apply toNat_ne_imp
    have : (']' : Char).toNat = 93 := by decide
    omega
  · apply toNat_ne_imp
    have : rbrace.toNat = 125 := by simp [rbrace, toNat_ofNat_small]
    omega

/-- The head shape of a rendered integer. -/
theorem intToChars_cons (n : Int) : ∃ c cs, intToChars n = c :: cs ∧
    (c = '-' ∨ isDigitChar c = true) := by
  by_cases hn : n < 0
  · exact ⟨'-', natToChars n.natAbs, by simp [intToChars, hn], Or.inl rfl⟩
  · cases hnc : natToChars n.natAbs with
    | nil => exact absurd hnc (natToChars_ne_nil _)
    | cons c cs =>
      refine ⟨c, cs, by simp [intToChars, hn, hnc], Or.inr ?_⟩
      exact natToChars_digits n.natAbs c (by rw [hnc]; simp)

theorem pv_null (g : Nat) (rest : List Char) :
    parseValue (g + 1) ('n' :: 'u' :: 'l' :: 'l' :: rest) = some (.null, rest) := rfl

theorem pv_true (g : Nat) (rest : List Char) :
    parseValue (g + 1) ('t' :: 'r' :: 'u' :: 'e' :: rest) = some (.bool true, rest) := rfl

theorem pv_false (g : Nat) (rest : List Char) :
    parseValue (g + 1) ('f' :: 'a' :: 'l' :: 's' :: 'e' :: rest) =
      some (.bool false, rest) := rfl

theorem pv_str (g : Nat) (l : List Char) :
    parseValue (g + 1) ('"' :: l) =
      match parseStringBody l [] with
      | some (s, r) => some (.str s, r)
      | none => none := rfl

theorem pv_arr_nil (g : Nat) (rest : List Char) :
    parseValue (g + 1) ('[' :: ']' :: rest) = some (.arr .nil, rest) := rfl

theorem pv_obj_nil (g : Nat) (rest : List Char) :
    parseValue (g + 1) (lbrace :: rbrace :: rest) = some (.obj .nil, rest) := rfl

theorem pv_num (g : Nat) (c : Char) (l : List Char)
    (h : c = '-' ∨ isDigitChar c = true) :
    parseValue (g + 1) (c :: l) = parseNumberFrom (c :: l) := by
  have hws : jsonWS c = false := by
    cases hw : jsonWS c
    · rfl
    · have := jsonWS_toNat c hw
      rcases h with h | h
      · rw [h] at this; revert this; decide
      · rw [isDigitChar_iff] at h; omega
  have hcond : (decide (c = '-') || isDigitChar c) = true := by
    rcases h with h | h
    · rw [h]; simp
    · rw [h]; simp
  simp only [parseValue, skipWS_cons l hws, hcond, if_true, reduceIte]

theorem pv_arr_cons (g : Nat) (d : Char) (r2 : List Char) (h1 : jsonWS d = false)
    (h2 : d ≠ ']') :
    parseValue (g + 1) ('[' :: d :: r2) =
      match parseElems g (d :: r2) with
      | some (vs, r3) => some (.arr vs, r3)
      | none => none := by
  have hsw : skipWS (d :: r2) = d :: r2 := skipWS_cons r2 h1
  have hsw2 : skipWS ('[' :: d :: r2) = '[' :: d :: r2 := skipWS_cons _ (by decide)
  simp +decide [parseValue, hsw2, hsw, h2]

theorem pv_obj_cons (g : Nat) (d : Char) (r2 : List Char) (h1 : jsonWS d = false)
    (h2 : d ≠ rbrace) :
    parseValue (g + 1) (lbrace :: d :: r2) =
      match parseMembers g (d :: r2) with
      | some (ms, r3) => some (.obj ms, r3)
      | none => none := by
  have hsw : skipWS (d :: r2) = d :: r2 := skipWS_cons r2 h1
  have hsw2 : skipWS (lbrace :: d :: r2) = lbrace :: d :: r2 := by
    apply skipWS_cons
    decide
  simp +decide [parseValue, hsw2, hsw, h2]

/-! ### The JSON round trip -/

theorem needFuel_pos (v : Json) : 1 ≤ needFuel v := by
  cases v with
  | null => simp only [needFuel]; omega
  | bool b => simp only [needFuel]; omega
  | num n => simp only [needFuel]; omega
  | str s => simp only [needFuel]; omega
  | arr xs => cases xs <;> simp only [needFuel] <;> omega
  | obj ms => cases ms <;> simp only [needFuel] <;> omega

theorem needElemsFuel_pos (v : Json) (vs : JsonList) : 1 ≤ needElemsFuel v vs := by
  cases vs <;> simp only [needElemsFuel] <;> omega

theorem needMembersFuel_pos (k : String) (v : Json) (ms : JsonMembers) :
    1 ≤ needMembersFuel k v ms := by
  cases ms <;> simp only [needMembersFuel] <;> omega

theorem parse_strfy : ∀ fuel : Nat,
    (∀ v rest, needFuel v ≤ fuel → noDigitHead rest = true →
      parseValue fuel (strfyChars v ++ rest) = some (v, rest)) ∧
    (∀ v vs rest, needElemsFuel v vs ≤ fuel →
      parseElems fuel (strfyChars v ++ (strfyElemsTail vs ++ (']' :: rest))) =
        some (.cons v vs, rest)) ∧
    (∀ k v ms rest, needMembersFuel k v ms ≤ fuel →
      parseMembers fuel
          (strfyMemberChars k v ++ (strfyMembersTail ms ++ (rbrace :: rest))) =
        some (.cons k v ms, rest)) := by
  intro fuel
  induction fuel using Nat.strong_induction_on with
  | _ fuel ih =>
    refine ⟨?_, ?_, ?_⟩
    · intro v rest hfe hbd
      have hpos := needFuel_pos v
      obtain ⟨g, rfl⟩ : ∃ g, fuel = g + 1 := ⟨fuel - 1, by omega⟩
      cases v with
      | null =>
        have hs : strfyChars Json.null ++ rest = 'n' :: 'u' :: 'l' :: 'l' :: rest := by
          simp [strfyChars, nullChars]
        rw [hs, pv_null]
      | bool b =>
        cases b with
        | true =>
          have hs : strfyChars (Json.bool true) ++ rest =
              't' :: 'r' :: 'u' :: 'e' :: rest := by
            simp [strfyChars, trueChars]
          rw [hs, pv_true]
        | false =>
          have hs : strfyChars (Json.bool false) ++ rest =
              'f' :: 'a' :: 'l' :: 's' :: 'e' :: rest := by
            simp [strfyChars, falseChars]
          rw [hs, pv_false]
      | num n =>
        obtain ⟨c, cs, hcons, hc⟩ := intToChars_cons n
        have hs : strfyChars (Json.num n) ++ rest = c :: (cs ++ rest) := by
          simp [strfyChars, hcons]
        rw [hs, pv_num g c _ hc]
        have hback : c :: (cs ++ rest) = intToChars n ++ rest := by
          simp [hcons]
        rw [hback, parseNumberFrom_intToChars n rest hbd]
      | str s =>
        have hs : strfyChars (Json.str s) ++ rest =
            '"' :: (encodeChars s.data ++ ('"' :: rest)) := by
          simp [strfyChars]
        rw [hs, pv_str, parseStringBody_encode]
        rfl
      | arr xs =>
        cases xs with
        | nil =>
          have hs : strfyChars (Json.arr .nil) ++ rest = '[' :: ']' :: rest := by
            simp [strfyChars]
          rw [hs, pv_arr_nil]
        | cons v vs =>
          obtain ⟨d, ds, hd, hdcat⟩ := strfyChars_head v
          have hfacts := head_facts d hdcat
          have hs : strfyChars (Json.arr (.cons v vs)) ++ rest =
              '[' :: (d :: (ds ++ (strfyElemsTail vs ++ (']' :: rest)))) := by
            simp [strfyChars, hd, List.append_assoc]
          rw [hs, pv_arr_cons g d _ hfacts.1 hfacts.2.2.1]
          have he : d :: (ds ++ (strfyElemsTail vs ++ (']' :: rest))) =
              strfyChars v ++ (strfyElemsTail vs ++ (']' :: rest)) := by
            simp [hd]
          rw [he]
          have harr : needFuel (Json.arr (.cons v vs)) = 1 + needElemsFuel v vs := by
            simp [needFuel]
          rw [(ih g (by omega)).2.1 v vs rest (by omega)]
      | obj ms =>
        cases ms with
        | nil =>
          have hs : strfyChars (Json.obj .nil) ++ rest = lbrace :: rbrace :: rest := by
            simp [strfyChars]
          rw [hs, pv_obj_nil]
        | cons k v ms =>
          have hs : strfyChars (Json.obj (.cons k v ms)) ++ rest =
              lbrace :: ('"' :: ((encodeChars k.data ++ '"' :: ':' :: strfyChars v) ++
                (strfyMembersTail ms ++ (rbrace :: rest)))) := by
            simp [strfyChars, strfyMemberChars, List.append_assoc]
          rw [hs, pv_obj_cons g '"' _ (by decide) (by
            apply toNat_ne_imp
            have h1 : ('"' : Char).toNat = 34 := by decide
            have h2 : rbrace.toNat = 125 := by simp [rbrace, toNat_ofNat_small]
            omega)]
          have he : ('"' :: ((encodeChars k.data ++ '"' :: ':' :: strfyChars v) ++
              (strfyMembersTail ms ++ (rbrace :: rest)))) =
              strfyMemberChars k v ++ (strfyMembersTail ms ++ (rbrace :: rest)) := by
            simp [strfyMemberChars, List.append_assoc]
          rw [he]
          have hobj : needFuel (Json.obj (.cons k v ms)) = 1 + needMembersFuel k v ms := by
            simp [needFuel]
          rw [(ih g (by omega)).2.2 k v ms rest (by omega)]
    · intro v vs rest hfe
      have hpos := needElemsFuel_pos v vs
      obtain ⟨g, rfl⟩ : ∃ g, fuel = g + 1 := ⟨fuel - 1, by omega⟩
      have hbd : noDigitHead (strfyElemsTail vs ++ (']' :: rest)) = true := by
        cases vs with
        | nil => simp +decide [strfyElemsTail, noDigitHead, isDigitChar]
        | cons w ws => simp +decide [strfyElemsTail, noDigitHead, isDigitChar]
      have hval : needFuel v ≤ g := by
        cases vs with
        | nil =>
          simp only [needElemsFuel] at hfe
          omega
        | cons w ws =>
          simp only [needElemsFuel] at hfe
          have hmax : max (needFuel v) (needElemsFuel w ws) ≤ g := by omega
          exact le_trans (Nat.le_max_left _ _) hmax
      have hv := (ih g (by omega)).1 v (strfyElemsTail vs ++ (']' :: rest)) hval hbd
      simp only [parseElems]
      rw [hv]
      cases vs with
      | nil =>
        simp only [strfyElemsTail, List.nil_append]
        rw [skipWS_cons _ (by decide)]
        simp +decide
      | cons w ws =>
        simp only [strfyElemsTail, List.cons_append]
        rw [skipWS_cons _ (by decide)]
        have hws : needElemsFuel w ws ≤ g := by
          simp only [needElemsFuel] at hfe
          have hmax : max (needFuel v) (needElemsFuel w ws) ≤ g := by omega
          exact le_trans (Nat.le_max_right _ _) hmax
        have hrec := (ih g (by omega)).2.1 w ws rest hws
        simp only [List.append_assoc] at hrec ⊢
        simp +decide [hrec]
    · intro k v ms rest hfe
      have hpos := needMembersFuel_pos k v ms
      obtain ⟨g, rfl⟩ : ∃ g, fuel = g + 1 := ⟨fuel - 1, by omega⟩
      have hbd : noDigitHead (strfyMembersTail ms ++ (rbrace :: rest)) = true := by
        cases ms with
        | nil =>
          simp only [strfyMembersTail, List.nil_append, noDigitHead]
          have : isDigitChar rbrace = false := by
            simp [rbrace, isDigitChar, toNat_ofNat_small]
          simp [this]
        | cons k2 w ms2 => simp +decide [strfyMembersTail, noDigitHead, isDigitChar]
      have hval : needFuel v ≤ g := by
        cases ms with
        | nil =>
          simp only [needMembersFuel] at hfe
          omega
        | cons k2 w ms2 =>
          simp only [needMembersFuel] at hfe
          have hmax : max (needFuel v) (needMembersFuel k2 w ms2) ≤ g := by omega
          exact le_trans (Nat.le_max_left _ _) hmax
      have hkey : strfyMemberChars k v ++ (strfyMembersTail ms ++ (rbrace :: rest)) =
          '"' :: (encodeChars k.data ++
            ('"' :: (':' :: (strfyChars v ++ (strfyMembersTail ms ++ (rbrace :: rest)))))) := by
        simp [strfyMemberChars, List.append_assoc]
      simp only [parseMembers]
      rw [hkey, skipWS_cons _ (by decide)]
      simp only [if_pos rfl]
      rw [parseStringBody_encode]
      simp only [List.reverse_nil, List.nil_append, string_mk_data]
      rw [skipWS_cons _ (by decide)]
      simp only [if_pos rfl]
      have hv := (ih g (by omega)).1 v (strfyMembersTail ms ++ (rbrace :: rest)) hval hbd
      rw [hv]
      cases ms with
      | nil =>
        simp only [strfyMembersTail, List.nil_append]
        rw [skipWS_cons _ (by
          have : jsonWS rbrace = false := by
            cases hw : jsonWS rbrace
            · rfl
            · have := jsonWS_toNat _ hw
              have h2 : rbrace.toNat = 125 := by simp [rbrace, toNat_ofNat_small]
              omega
          exact this)]
        have hne : (rbrace = ',') = False := by
          simp only [eq_iff_iff, iff_false]
          apply toNat_ne_imp
          have h2 : rbrace.toNat = 125 := by simp [rbrace, toNat_ofNat_small]
          have h3 : (',' : Char).toNat = 44 := by decide
          omega
        simp [hne]
      | cons k2 w ms2 =>
        simp only [strfyMembersTail, List.cons_append]
        rw [skipWS_cons _ (by decide)]
        have hws : needMembersFuel k2 w ms2 ≤ g := by
          simp only [needMembersFuel] at hfe
          have hmax : max (needFuel v) (needMembersFuel k2 w ms2) ≤ g := by omega
          exact le_trans (Nat.le_max_right _ _) hmax
        have hrec := (ih g (by omega)).2.2 k2 w ms2 rest hws
        simp only [List.append_assoc] at hrec ⊢
        simp +decide [hrec]

mutual

theorem needFuel_le : ∀ v : Json, needFuel v ≤ (strfyChars v).length + 1
  | .null => by simp only [needFuel]; omega
  | .bool b => by simp only [needFuel]; omega
  | .num n => by simp only [needFuel]; omega
  | .str s => by simp only [needFuel]; omega
  | .arr .nil => by simp only [needFuel]; omega
  | .arr (.cons v vs) => by
    have h := needElemsFuel_le v vs
    simp only [needFuel, strfyChars, List.length_cons, List.length_append]
    omega
  | .obj .nil => by simp only [needFuel]; omega
  | .obj (.cons k v ms) => by
    have h := needMembersFuel_le k v ms
    simp only [needFuel, strfyChars, List.length_cons, List.length_append]
    omega
termination_by v => sizeOf v

theorem needElemsFuel_le : ∀ (v : Json) (vs : JsonList),
    needElemsFuel v vs ≤ (strfyChars v).length + (strfyElemsTail vs).length + 2
  | v, .nil => by
    have h := needFuel_le v
    simp only [needElemsFuel, strfyElemsTail, List.length_nil]
    omega
  | v, .cons w ws => by
    have h1 := needFuel_le v
    have h2 := needElemsFuel_le w ws
    simp only [needElemsFuel, strfyElemsTail, List.length_cons, List.length_append]
    rcases Nat.le_total (needFuel v) (needElemsFuel w ws) with hm | hm
    · rw [Nat.max_eq_right hm]; omega
    · rw [Nat.max_eq_left hm]; omega
termination_by v vs => sizeOf v + sizeOf vs

theorem needMembersFuel_le : ∀ (k : String) (v : Json) (ms : JsonMembers),
    needMembersFuel k v ms ≤
      (strfyMemberChars k v).length + (strfyMembersTail ms).length + 2
  | k, v, .nil => by
    have h := needFuel_le v
    simp only [needMembersFuel, strfyMemberChars, strfyMembersTail, List.length_nil,
      List.length_cons, List.length_append]
    omega
  | k, v, .cons k2 w ms2 => by
    have h1 := needFuel_le v
    have h2 := needMembersFuel_le k2 w ms2
    simp only [strfyMemberChars, List.length_cons, List.length_append] at h2
    simp only [needMembersFuel, strfyMemberChars, strfyMembersTail,
      List.length_cons, List.length_append]
    rcases Nat.le_total (needFuel v) (needMembersFuel k2 w ms2) with hm | hm
    · rw [Nat.max_eq_right hm]; omega
    · rw [Nat.max_eq_left hm]; omega
termination_by _ v ms => sizeOf v + sizeOf ms

end

/-- The JSON codec round trip on canonical output:
`JSON.parse (JSON.stringify v) = v`. -/
theorem jsonParse_strfy (v : Json) : jsonParse (strfy v) = some v := by
  have hlen : needFuel v ≤ (strfyChars v).length + 1 := needFuel_le v
  have h := (parse_strfy ((strfyChars v).length + 1)).1 v [] hlen rfl
  rw [List.append_nil] at h
  simp [jsonParse, strfy, h, skipWS]

/-! ### Code-block extraction on a wrapped payload -/

theorem stripChars_self : ∀ ps l, stripChars ps (ps ++ l) = some l := by
  intro ps
  induction ps with
  | nil => intro l; rfl
  | cons p ps ih => intro l; simp [stripChars, ih]

theorem lastNonWS_singleton (a : Char) (h : lastNonWS [a] = true) : jsWS a = false := by
  simp only [lastNonWS, List.getLast?_singleton, Bool.not_eq_true'] at h
  exact h

theorem lastNonWS_cons_cons (a b : Char) (l : List Char) :
    lastNonWS (a :: b :: l) = lastNonWS (b :: l) := by
  simp [lastNonWS, List.getLast?_cons_cons]

theorem lastNonWS_spec (l : List Char) (h : lastNonWS l = true) :
    ∃ c, l.getLast? = some c ∧ jsWS c = false := by
  unfold lastNonWS at h
  cases hg : l.getLast? with
  | none => rw [hg] at h; simp at h
  | some c =>
    rw [hg] at h
    simp only [Bool.not_eq_true'] at h
    exact ⟨c, rfl, h⟩

theorem noTripleTick_tail : ∀ (a : Char) (l : List Char),
    noTripleTick (a :: l) = true → noTripleTick l = true := by
  intro a l h
  match l with
  | [] => rfl
  | [b] => rfl
  | b :: c :: rest =>
    simp only [noTripleTick, Bool.and_eq_true] at h
    exact h.2

theorem tickTail_cons_not_btick (c : Char) (l : List Char) (h : c ≠ btick) :
    tickTailMatch (c :: l) = (jsWS c && tickTailMatch l) := by
  simp only [tickTailMatch]
  rw [if_neg h]

theorem findGroup_cons_eq (c : Char) (l : List Char) :
    findGroup (c :: l) =
      if tickTailMatch (c :: l) = true then some []
      else
        match findGroup l with
        | some g => some (c :: g)
        | none => none := rfl

theorem tickTail_sep_false : ∀ (S : List Char) (r : List Char),
    lastNonWS S = true → noTripleTick S = true →
    tickTailMatch (S ++ '\n' :: btick :: btick :: btick :: r) = false := by
  intro S
  induction S with
  | nil =>
    intro r h _
    simp [lastNonWS] at h
  | cons a S ihS =>
    intro r hlast htriple
    cases S with
    | nil =>
      have hja : jsWS a = false := lastNonWS_singleton a hlast
      by_cases hab : a = btick
      · subst hab
        rfl
      · simp [tickTailMatch, hab, hja]
    | cons b S2 =>
      have hlast2 : lastNonWS (b :: S2) = true := by
        rw [← lastNonWS_cons_cons a]; exact hlast
      have htriple2 : noTripleTick (b :: S2) = true := noTripleTick_tail a _ htriple
      have hrec := ihS r hlast2 htriple2
      by_cases hab : a = btick
      · subst hab
        -- head is a backtick: the next two characters decide, and they are
        -- b and either the head of S2 or the separating newline
        cases S2 with
        | nil =>
          -- chars: btick, b, '\n'
          simp only [List.cons_append, List.nil_append, tickTailMatch, if_pos rfl]
          by_cases hb : b = btick
          · subst hb
            rfl
          · simp [hb]
        | cons c S3 =>
          simp only [List.cons_append, tickTailMatch, if_pos rfl]
          by_cases hb : b = btick
          · subst hb
            -- noTripleTick forbids c = btick
            simp only [noTripleTick, Bool.and_eq_true, Bool.not_eq_true'] at htriple
            have hc : (decide (btick = btick) && decide (btick = btick) &&
                decide (c = btick)) = false := htriple.1
            simp only [decide_eq_true_eq] at hc
            have hcb : c ≠ btick := by
              intro he
              rw [he] at hc
              simp at hc
            simp [hcb]
          · simp [hb]
      · -- head not a backtick: whitespace step, recursion is false
        simp only [List.cons_append] at hrec ⊢
        rw [tickTail_cons_not_btick a _ hab]
        rw [hrec, Bool.and_false]

theorem findGroup_sep : ∀ (S : List Char) (r : List Char),
    lastNonWS S = true → noTripleTick S = true →
    findGroup (S ++ '\n' :: btick :: btick :: btick :: r) = some S := by
  intro S
  induction S with
  | nil =>
    intro r h _
    simp [lastNonWS] at h
  | cons a S ihS =>
    intro r hlast htriple
    have htt := tickTail_sep_false (a :: S) r hlast htriple
    cases S with
    | nil =>
      have hbase : findGroup ('\n' :: btick :: btick :: btick :: r) = some [] := rfl
      simp only [List.cons_append, List.nil_append] at htt ⊢
      rw [findGroup_cons_eq]
      simp [htt, hbase]
    | cons b S2 =>
      have hlast2 : lastNonWS (b :: S2) = true := by
        rw [← lastNonWS_cons_cons a]; exact hlast
      have htriple2 : noTripleTick (b :: S2) = true := noTripleTick_tail a _ htriple
      have hrec := ihS r hlast2 htriple2
      simp only [List.cons_append] at htt hrec ⊢
      rw [findGroup_cons_eq]
      simp [htt, hrec]

theorem dropWhile_head_false (l : List Char) (c : Char) (h : l.head? = some c)
    (hws : jsWS c = false) : l.dropWhile jsWS = l := by
  cases l with
  | nil => simp at h
  | cons a l2 =>
    have ha : a = c := by
      simpa using h
    subst ha
    simp [List.dropWhile, hws]

/-- The captured group of the code-block regex on a fenced `json`-tagged
payload whose interior starts and ends with non-whitespace and contains no
triple backtick. -/
theorem execCodeBlock_tagged (S : List Char) (c : Char) (cs : List Char)
    (hS : S = c :: cs) (hhead : jsWS c = false)
    (hlast : lastNonWS S = true) (htriple : noTripleTick S = true) :
    execCodeBlock (btick :: btick :: btick :: 'j' :: 's' :: 'o' :: 'n' :: '\n' ::
      (S ++ ('\n' :: btick :: btick :: btick :: []))) = some S := by
  have hstrip : stripChars [btick, btick, btick]
      (btick :: btick :: btick :: 'j' :: 's' :: 'o' :: 'n' :: '\n' ::
        (S ++ ('\n' :: btick :: btick :: btick :: []))) =
      some ('j' :: 's' :: 'o' :: 'n' :: '\n' ::
        (S ++ ('\n' :: btick :: btick :: btick :: []))) :=
    stripChars_self [btick, btick, btick] _
  have hjson : stripChars jsonTag
      ('j' :: 's' :: 'o' :: 'n' :: '\n' :: (S ++ ('\n' :: btick :: btick :: btick :: []))) =
      some ('\n' :: (S ++ ('\n' :: btick :: btick :: btick :: []))) :=
    stripChars_self jsonTag _
  have hdrop : List.dropWhile jsWS
      ('\n' :: (S ++ ('\n' :: btick :: btick :: btick :: []))) =
      S ++ ('\n' :: btick :: btick :: btick :: []) := by
    rw [List.dropWhile_cons]
    have : jsWS '\n' = true := by decide
    rw [this]
    simp only [if_true, reduceIte]
    apply dropWhile_head_false _ c
    · rw [hS]; rfl
    · exact hhead
  have hfind : findGroup (S ++ ('\n' :: btick :: btick :: btick :: [])) = some S :=
    findGroup_sep S [] hlast htriple
  have hbody : matchBody ('\n' :: (S ++ ('\n' :: btick :: btick :: btick :: []))) = some S := by
    unfold matchBody
    rw [hdrop, hfind]
  -- assemble: the leftmost candidate is position 0 and it matches
  show (match tryTicksAt (btick :: btick :: btick :: 'j' :: 's' :: 'o' :: 'n' :: '\n' ::
      (S ++ ('\n' :: btick :: btick :: btick :: []))) with
    | some g => some g
    | none => execCodeBlock (btick :: btick :: 'j' :: 's' :: 'o' :: 'n' :: '\n' ::
        (S ++ ('\n' :: btick :: btick :: btick :: [])))) = some S
  unfold tryTicksAt
  rw [hstrip]
  dsimp only
  unfold matchAfterTicks
  rw [hjson]
  dsimp only
  rw [hbody]

/-- Same, for the untagged fence. -/
theorem execCodeBlock_untagged (S : List Char) (c : Char) (cs : List Char)
    (hS : S = c :: cs) (hhead : jsWS c = false)
    (hlast : lastNonWS S = true) (htriple : noTripleTick S = true) :
    execCodeBlock (btick :: btick :: btick :: '\n' ::
      (S ++ ('\n' :: btick :: btick :: btick :: []))) = some S := by
  have hstrip : stripChars [btick, btick, btick]
      (btick :: btick :: btick :: '\n' :: (S ++ ('\n' :: btick :: btick :: btick :: []))) =
      some ('\n' :: (S ++ ('\n' :: btick :: btick :: btick :: []))) :=
    stripChars_self [btick, btick, btick] _
  have hjson : stripChars jsonTag
      ('\n' :: (S ++ ('\n' :: btick :: btick :: btick :: []))) = none := rfl
  have hdrop : List.dropWhile jsWS
      ('\n' :: (S ++ ('\n' :: btick :: btick :: btick :: []))) =
      S ++ ('\n' :: btick :: btick :: btick :: []) := by
    rw [List.dropWhile_cons]
    have : jsWS '\n' = true := by decide
    rw [this]
    simp only [if_true, reduceIte]
    apply dropWhile_head_false _ c
    · rw [hS]; rfl
    · exact hhead
  have hfind : findGroup (S ++ ('\n' :: btick :: btick :: btick :: [])) = some S :=
    findGroup_sep S [] hlast htriple
  have hbody : matchBody ('\n' :: (S ++ ('\n' :: btick :: btick :: btick :: []))) = some S := by
    unfold matchBody
    rw [hdrop, hfind]
  show (match tryTicksAt (btick :: btick :: btick :: '\n' ::
      (S ++ ('\n' :: btick :: btick :: btick :: []))) with
    | some g => some g
    | none => execCodeBlock (btick :: btick :: '\n' ::
        (S ++ ('\n' :: btick :: btick :: btick :: [])))) = some S
  unfold tryTicksAt
  rw [hstrip]
  dsimp only
  unfold matchAfterTicks
  rw [hjson]
  dsimp only
  rw [hbody]

theorem jsTrim_of_nonws (S : List Char) (c : Char) (cs : List Char)
    (hS : S = c :: cs) (hhead : jsWS c = false) (hlast : lastNonWS S = true) :
    jsTrim (String.mk S) = String.mk S := by
  obtain ⟨d, hd, hwd⟩ := lastNonWS_spec S hlast
  unfold jsTrim
  have hdata : (String.mk S).data = S := rfl
  rw [hdata]
  have h1 : S.dropWhile jsWS = S := by
    apply dropWhile_head_false _ c
    · rw [hS]; rfl
    · exact hhead
  rw [h1]
  have h2 : S.reverse.dropWhile jsWS = S.reverse := by
    apply dropWhile_head_false _ d
    · rw [List.head?_reverse]; exact hd
    · exact hwd
  rw [h2, List.reverse_reverse]

/-! ### Claims C5 and C6 — the output parser -/

theorem jsWS_digit_false (c : Char) (h : isDigitChar c = true) : jsWS c = false := by
  cases hw : jsWS c
  · rfl
  · have := jsWS_toNat c hw
    rw [isDigitChar_iff] at h
    omega

theorem lastNonWS_concat (l : List Char) (c : Char) (h : jsWS c = false) :
    lastNonWS (l ++ [c]) = true := by
  simp [lastNonWS, List.getLast?_concat, h]

theorem jsWS_rbrace : jsWS rbrace = false := by
  cases hw : jsWS rbrace
  · rfl
  · have := jsWS_toNat _ hw
    have h2 : rbrace.toNat = 125 := by simp [rbrace, toNat_ofNat_small]
    omega

theorem strfyChars_last (v : Json) : lastNonWS (strfyChars v) = true := by
  cases v with
  | null =>
    have hs : strfyChars Json.null = ['n', 'u', 'l', 'l'] := by simp [strfyChars, nullChars]
    rw [hs]; decide
  | bool b =>
    cases b with
    | true =>
      have hs : strfyChars (Json.bool true) = ['t', 'r', 'u', 'e'] := by
        simp [strfyChars, trueChars]
      rw [hs]; decide
    | false =>
      have hs : strfyChars (Json.bool false) = ['f', 'a', 'l', 's', 'e'] := by
        simp [strfyChars, falseChars]
      rw [hs]; decide
  | num n =>
    have hs : strfyChars (Json.num n) = intToChars n := by simp [strfyChars]
    rw [hs]
    rcases List.eq_nil_or_concat (natToChars n.natAbs) with hnil | ⟨l2, a, hcat⟩
    · exact absurd hnil (natToChars_ne_nil _)
    · rw [List.concat_eq_append] at hcat
      have hdig : isDigitChar a = true :=
        natToChars_digits n.natAbs a (by rw [hcat]; simp)
      have hws := jsWS_digit_false a hdig
      unfold intToChars
      by_cases hn : n < 0
      · rw [if_pos hn, hcat]
        rw [show ('-' :: (l2 ++ [a])) = ('-' :: l2) ++ [a] from rfl]
        exact lastNonWS_concat _ a hws
      · rw [if_neg hn, hcat]
        exact lastNonWS_concat _ a hws
  | str s =>
    have hs : strfyChars (Json.str s) = ('"' :: encodeChars s.data) ++ ['"'] := by
      simp [strfyChars]
    rw [hs]
    exact lastNonWS_concat _ _ (by decide)
  | arr xs =>
    cases xs with
    | nil =>
      have hs : strfyChars (Json.arr .nil) = ['[', ']'] := by simp [strfyChars]
      rw [hs]; decide
    | cons v vs =>
      have hs : strfyChars (Json.arr (.cons v vs)) =
          ('[' :: (strfyChars v ++ strfyElemsTail vs)) ++ [']'] := by
        simp [strfyChars]
      rw [hs]
      exact lastNonWS_concat _ _ (by decide)
  | obj ms =>
    cases ms with
    | nil =>
      have hs : strfyChars (Json.obj .nil) = [lbrace] ++ [rbrace] := by simp [strfyChars]
      rw [hs]
      exact lastNonWS_concat _ _ jsWS_rbrace
    | cons k v ms =>
      have hs : strfyChars (Json.obj (.cons k v ms)) =
          (lbrace :: (strfyMemberChars k v ++ strfyMembersTail ms)) ++ [rbrace] := by
        simp [strfyChars]
      rw [hs]
      exact lastNonWS_concat _ _ jsWS_rbrace

theorem tagOpen_data : ("```json\n" : String).data =
    btick :: btick :: btick :: 'j' :: 's' :: 'o' :: 'n' :: '\n' :: [] := by decide

theorem bareOpen_data : ("```\n" : String).data =
    btick :: btick :: btick :: '\n' :: [] := by decide

theorem closeFence_data : ("\n```" : String).data =
    '\n' :: btick :: btick :: btick :: [] := by decide

/-- Extraction and trimming on a fenced stringified payload recover the
payload exactly, provided it contains no triple backtick. -/
theorem processedOutput_wrapped (v : Json)
    (htriple : noTripleTick (strfyChars v) = true) :
    processedOutput ("```json\n" ++ strfy v ++ "\n```") = strfy v ∧
    processedOutput ("```\n" ++ strfy v ++ "\n```") = strfy v := by
  obtain ⟨c, cs, hcons, hcat⟩ := strfyChars_head v
  have hfacts := head_facts c hcat
  have hlast := strfyChars_last v
  have hne : (strfyChars v).isEmpty = false := by
    rw [hcons]; rfl
  have hdata1 : ("```json\n" ++ strfy v ++ "\n```").data =
      btick :: btick :: btick :: 'j' :: 's' :: 'o' :: 'n' :: '\n' ::
        (strfyChars v ++ ('\n' :: btick :: btick :: btick :: [])) := by
    rw [String.data_append, String.data_append, tagOpen_data, closeFence_data]
    simp [strfy]
  have hdata2 : ("```\n" ++ strfy v ++ "\n```").data =
      btick :: btick :: btick :: '\n' ::
        (strfyChars v ++ ('\n' :: btick :: btick :: btick :: [])) := by
    rw [String.data_append, String.data_append, bareOpen_data, closeFence_data]
    simp [strfy]
  have hexec1 := execCodeBlock_tagged (strfyChars v) c cs hcons hfacts.2.1 hlast htriple
  have hexec2 := execCodeBlock_untagged (strfyChars v) c cs hcons hfacts.2.1 hlast htriple
  have htrim : jsTrim (String.mk (strfyChars v)) = String.mk (strfyChars v) :=
    jsTrim_of_nonws (strfyChars v) c cs hcons hfacts.2.1 hlast
  constructor
  · unfold processedOutput
    rw [hdata1, hexec1]
    dsimp only
    rw [if_neg (by rw [hne]; simp)]
    exact htrim
  · unfold processedOutput
    rw [hdata2, hexec2]
    dsimp only
    rw [if_neg (by rw [hne]; simp)]
    exact htrim

/-- C5 (amended): for every JSON value `v` conforming to the schema (the
schema validates `v` to itself) whose stringification contains no triple
backtick, running the parse node on a state whose last message is an `ai`
message whose content is `JSON.stringify(v)` wrapped in a fenced code
block (triple backticks, optionally tagged json, payload on its own line)
succeeds and sets `result` to `v`. -/
theorem parseNode_roundtrip (sch : Json → Option Json) (v : Json) (s : WFState)
    (m : Message) (hsch : sch v = some v) (hm : lastMsg s.messages = some m)
    (hrole : m.role = .ai)
    (hcontent : m.content = .str ("```json\n" ++ strfy v ++ "\n```") ∨
      m.content = .str ("```\n" ++ strfy v ++ "\n```"))
    (htriple : noTripleTick (strfyChars v) = true) :
    createParseNode sch s = .ok { s with result := some v } := by
  have hpo : processedOutput (extractContent m.content) = strfy v := by
    rcases hcontent with hc | hc <;> rw [hc]
    · exact (processedOutput_wrapped v htriple).1
    · exact (processedOutput_wrapped v htriple).2
  unfold createParseNode
  rw [hm]
  dsimp only
  rw [if_pos hrole, hpo, jsonParse_strfy]
  dsimp only
  rw [hsch]

/-- Identity schema: every value validates to itself. -/
def idSchema : Json → Option Json := fun j => some j

/-- A string value whose stringification contains a triple backtick. -/
def tickyVal : Json := .str "a```b"

/-- The wrapped content of `tickyVal`, written out. -/
def tickyWrapped : String := "```json\n\"a```b\"\n```"

/-- AI message carrying the wrapped ticky payload. -/
def tickyMsg : Message := ⟨.ai, .str tickyWrapped, none, none, none⟩

/-- State ending in `tickyMsg`. -/
def tickyState : WFState := ⟨humanIn, [tickyMsg], none⟩

/-- C5 counterexample: the JSON-serializable value "a```b" conforms to the
identity schema and its `JSON.stringify` output is wrapped as the claim
prescribes, yet the parse node fails with the malformed-output condition
instead of succeeding — the lazy regex closes the fence at the backticks
inside the string literal. -/
theorem parseNode_roundtrip_cex :
    createParseNode idSchema tickyState = .error .malformedOutput ∧
    idSchema tickyVal = some tickyVal ∧
    tickyMsg.content = .str ("```json\n" ++ strfy tickyVal ++ "\n```") ∧
    lastMsg tickyState.messages = some tickyMsg ∧ tickyMsg.role = .ai := by
  refine ⟨rfl, rfl, ?_, rfl, rfl⟩
  have hs : strfy tickyVal = "\"a```b\"" := by
    simp +decide [tickyVal, strfy, strfyChars, encodeChars, encodeChar]
  rw [hs]
  rfl

/-- A sample payload value for the round-trip witness. -/
def sampleVal : Json := .obj (.cons "name" (.str "A") .nil)

/-- State whose last message wraps `sampleVal` in a tagged fence. -/
def sampleState : WFState :=
  ⟨humanIn, [⟨.ai, .str ("```json\n" ++ strfy sampleVal ++ "\n```"), none, none, none⟩], none⟩

theorem parseNode_roundtrip_witness :
    createParseNode idSchema sampleState = .ok { sampleState with result := some sampleVal } := by
  apply parseNode_roundtrip idSchema sampleVal sampleState _ rfl rfl rfl (Or.inl rfl)
  have hs : strfyChars sampleVal =
      [lbrace, '"', 'n', 'a', 'm', 'e', '"', ':', '"', 'A', '"', rbrace] := by
    simp +decide [sampleVal, strfyChars, strfyMemberChars, strfyMembersTail,
      encodeChars, encodeChar]
  rw [hs]
  decide

/-- C6: the parse node fails with the type-mismatch condition exactly when
the last message is not an `ai` message; otherwise it fails with the
malformed-output condition exactly when strict JSON decoding of the
extracted text fails; otherwise it fails with the schema-violation
condition exactly when schema validation of the decoded value fails;
otherwise it succeeds and sets `result` to the validated value. -/
theorem parseNode_conditions (sch : Json → Option Json) (s : WFState) :
    ((createParseNode sch s = .error .typeMismatch) ↔
      ¬ ∃ m, lastMsg s.messages = some m ∧ m.role = .ai) ∧
    (∀ m, lastMsg s.messages = some m → m.role = .ai →
      (((createParseNode sch s = .error .malformedOutput) ↔
        jsonParse (processedOutput (extractContent m.content)) = none) ∧
       (∀ jd, jsonParse (processedOutput (extractContent m.content)) = some jd →
         (((createParseNode sch s = .error .schemaViolation) ↔ sch jd = none) ∧
          (∀ p, sch jd = some p →
            createParseNode sch s = .ok { s with result := some p }))))) := by
  cases hl : lastMsg s.messages with
  | none =>
    have hcp : createParseNode sch s = .error .typeMismatch := by
      unfold createParseNode
      rw [hl]
    refine ⟨?_, ?_⟩
    · rw [hcp]
      simp [hl]
    · intro m hm
      exact Option.noConfusion hm
  | some m =>
    by_cases hr : m.role = .ai
    · cases hj : jsonParse (processedOutput (extractContent m.content)) with
      | none =>
        have hcp : createParseNode sch s = .error .malformedOutput := by
          unfold createParseNode
          rw [hl]
          dsimp only
          rw [if_pos hr, hj]
        refine ⟨?_, ?_⟩
        · rw [hcp]
          simp [hr]
        · intro m2 hm2 hr2
          injection hm2 with hm2
          subst hm2
          refine ⟨by rw [hcp]; simp [hj], ?_⟩
          intro jd hjd
          rw [hj] at hjd
          exact Option.noConfusion hjd
      | some jd =>
        cases hs2 : sch jd with
        | none =>
          have hcp : createParseNode sch s = .error .schemaViolation := by
            unfold createParseNode
            rw [hl]
            dsimp only
            rw [if_pos hr, hj]
            dsimp only
            rw [hs2]
          refine ⟨?_, ?_⟩
          · rw [hcp]
            simp [hr]
          · intro m2 hm2 hr2
            injection hm2 with hm2
            subst hm2
            refine ⟨by rw [hcp]; simp [hj], ?_⟩
            intro jd2 hjd2
            rw [hj] at hjd2
            injection hjd2 with hjd2
            subst hjd2
            refine ⟨by rw [hcp]; simp [hs2], ?_⟩
            intro p hp
            rw [hs2] at hp
            exact Option.noConfusion hp
        | some p =>
          have hcp : createParseNode sch s = .ok { s with result := some p } := by
            unfold createParseNode
            rw [hl]
            dsimp only
            rw [if_pos hr, hj]
            dsimp only
            rw [hs2]
          refine ⟨?_, ?_⟩
          · rw [hcp]
            simp [hr]
          · intro m2 hm2 hr2
            injection hm2 with hm2
            subst hm2
            refine ⟨by rw [hcp]; simp [hj], ?_⟩
            intro jd2 hjd2
            rw [hj] at hjd2
            injection hjd2 with hjd2
            subst hjd2
            refine ⟨by rw [hcp]; simp [hs2], ?_⟩
            intro p2 hp2
            rw [hs2] at hp2
            injection hp2 with hp2
            subst hp2
            rw [hcp]
    · have hcp : createParseNode sch s = .error .typeMismatch := by
        unfold createParseNode
        rw [hl]
        dsimp only
        rw [if_neg hr]
      refine ⟨?_, ?_⟩
      · rw [hcp]
        simp [hr]
      · intro m2 hm2 hr2
        injection hm2 with hm2
        subst hm2
        exact absurd hr2 hr

end AgentSpec
